import Mathlib

/-!
# formate: paragraph reflow

A shallow embedding of `main.go` of the formate program: the literal-line test
`isLiteral`, the paragraph reader `scanPara`, the rune encoder `encodeRunes`,
the reflow loop of `main` (`reflowLoop`) and the loop over paragraphs around it
(`mainLoop`), together with the parts of the Go packages `unicode/utf8`,
`unicode` and `bytes` they call.

Bytes and runes are natural numbers; a line is the list of its bytes.  The
letter table of `unicode.IsLetter` is a parameter `isLetter` of every
definition that classifies lines.
-/

namespace Formate

/-- A line of text, as the list of its bytes. -/
abbrev Line := List Nat

/-- The constant `utf8.RuneError`, U+FFFD. -/
def RuneError : Nat := 0xFFFD

/-- The package variable `minLen`. -/
def minLen : Int := 45

/-- The package variable `maxLen`. -/
def maxLen : Int := 75

/-! ## Package `unicode/utf8` -/

/-- Size field (`x & 7`) of the entry of table `utf8.first` for a lead byte
`0xC2 ≤ p0 ≤ 0xF4`. -/
def leadSize (p0 : Nat) : Nat :=
  if p0 < 0xE0 then 2 else if p0 < 0xF0 then 3 else 4

/-- Lower bound `accept.lo` of the second byte after lead byte `p0`. -/
def acceptLo (p0 : Nat) : Nat :=
  if p0 = 0xE0 then 0xA0 else if p0 = 0xF0 then 0x90 else 0x80

/-- Upper bound `accept.hi` of the second byte after lead byte `p0`. -/
def acceptHi (p0 : Nat) : Nat :=
  if p0 = 0xED then 0x9F else if p0 = 0xF4 then 0x8F else 0xBF

/-- The function `utf8.DecodeRune`: the first rune of `p` and its width in
bytes; `(RuneError, 0)` for the empty slice and `(RuneError, 1)` for an invalid
encoding.  Masks and shifts are written as `%` and `*` by powers of two. -/
def utf8DecodeRune (p : Line) : Nat × Nat :=
  if p.length < 1 then (RuneError, 0) else
  let p0 := p.getD 0 0
  if p0 < 0x80 then (p0, 1)
  else if p0 < 0xC2 ∨ 0xF5 ≤ p0 then (RuneError, 1)
  else
    let sz := leadSize p0
    if p.length < sz then (RuneError, 1) else
    let b1 := p.getD 1 0
    if b1 < acceptLo p0 ∨ acceptHi p0 < b1 then (RuneError, 1) else
    if sz ≤ 2 then (p0 % 32 * 64 + b1 % 64, 2) else
    let b2 := p.getD 2 0
    if b2 < 0x80 ∨ 0xBF < b2 then (RuneError, 1) else
    if sz ≤ 3 then (p0 % 16 * 4096 + b1 % 64 * 64 + b2 % 64, 3) else
    let b3 := p.getD 3 0
    if b3 < 0x80 ∨ 0xBF < b3 then (RuneError, 1) else
    (p0 % 8 * 262144 + b1 % 64 * 4096 + b2 % 64 * 64 + b3 % 64, 4)

/-- Runes of `p` decoded front to back with `utf8DecodeRune`, at most `fuel`
of them. -/
def decodeAux : Nat → Line → List Nat
  | 0, _ => []
  | fuel + 1, p =>
    if p = [] then [] else
      (utf8DecodeRune p).1 :: decodeAux fuel (p.drop (utf8DecodeRune p).2)

/-- The loop `for _, r := range string(line)`: every rune of the line, an
invalid byte giving `RuneError` and advancing one byte. -/
def decodeRunes (p : Line) : List Nat := decodeAux p.length p

/-- The function `utf8.RuneCount`: the number of runes in `p`, an invalid byte
counting as one rune. -/
def utf8RuneCount (p : Line) : Nat := (decodeRunes p).length

/-- The function `utf8.RuneLen`: bytes needed to encode `r`, or `-1` when `r`
is not a valid value to encode. -/
def utf8RuneLen (r : Nat) : Int :=
  if r ≤ 0x7F then 1
  else if r ≤ 0x7FF then 2
  else if 0xD800 ≤ r ∧ r ≤ 0xDFFF then -1
  else if r ≤ 0xFFFF then 3
  else if r ≤ 0x10FFFF then 4
  else -1

/-- The bytes `utf8.EncodeRune` stores for `r`; a surrogate or a value above
U+10FFFF is stored as `RuneError`. -/
def runeBytes (r : Nat) : List Nat :=
  if r ≤ 0x7F then [r]
  else if r ≤ 0x7FF then [0xC0 + r / 64, 0x80 + r % 64]
  else if 0x10FFFF < r ∨ (0xD800 ≤ r ∧ r ≤ 0xDFFF) then [0xEF, 0xBF, 0xBD]
  else if r ≤ 0xFFFF then [0xE0 + r / 4096, 0x80 + r / 64 % 64, 0x80 + r % 64]
  else [0xF0 + r / 262144, 0x80 + r / 4096 % 64, 0x80 + r / 64 % 64, 0x80 + r % 64]

/-- The function `utf8.EncodeRune` on the buffer `p`: the buffer after the
write and the number of bytes written, `none` when `p` is too short (an index
out of range). -/
def utf8EncodeRune (p : Line) (r : Nat) : Option (Line × Nat) :=
  if p.length < (runeBytes r).length then none
  else some (runeBytes r ++ p.drop (runeBytes r).length, (runeBytes r).length)

/-! ## Package `unicode` -/

/-- The function `unicode.IsSpace`: the Latin-1 cases and the table
`White_Space`. -/
def unicodeIsSpace (r : Nat) : Bool :=
  if r ≤ 0xFF then
    r == 0x09 || r == 0x0A || r == 0x0B || r == 0x0C || r == 0x0D || r == 0x20
      || r == 0x85 || r == 0xA0
  else
    r == 0x1680 || (0x2000 ≤ r && r ≤ 0x200A) || r == 0x2028 || r == 0x2029
      || r == 0x202F || r == 0x205F || r == 0x3000

/-- The letters of the Latin-1 range, as `unicode.IsLetter` answers through its
table `properties`; no code point above U+00FF is classified here.  It stands
for the letter table in the concrete runs below, whose lines are ASCII. -/
def latin1Letter (r : Nat) : Bool :=
  (0x41 ≤ r && r ≤ 0x5A) || (0x61 ≤ r && r ≤ 0x7A) || r == 0xAA || r == 0xB5
    || r == 0xBA || (0xC0 ≤ r && r ≤ 0xD6) || (0xD8 ≤ r && r ≤ 0xF6)
    || (0xF8 ≤ r && r ≤ 0xFF)

/-! ## `main.go` -/

/-- The function `isLiteral`. -/
def isLiteral (isLetter : Nat → Bool) (line : Line) : Bool :=
  let first := (utf8DecodeRune line).1
  first == RuneError || !isLetter first

/-- The function `encodeRunes`: the first loop sums `utf8.RuneLen`, `make`
allocates that many zero bytes (`none` when the sum is negative), the second
loop writes each rune at offset `i` with `utf8.EncodeRune`. -/
def encodeRunes (rs : List Nat) : Option Line :=
  let n : Int := rs.foldl (fun n r => n + utf8RuneLen r) 0
  if n < 0 then none
  else
    (rs.foldl
      (fun st r =>
        st.bind fun bi =>
          (utf8EncodeRune (bi.1.drop bi.2) r).map fun tk =>
            (bi.1.take bi.2 ++ tk.1, bi.2 + tk.2))
      (some (List.replicate n.toNat 0, 0))).map Prod.fst

/-- The test `len(bytes.TrimSpace(line)) == 0` of `scanPara`: `bytes.TrimSpace`
cuts the leading and trailing runes that are white space for `unicode.IsSpace`,
and leaves nothing exactly when every rune of the line is white space (an
invalid byte decodes to `RuneError`, which is not). -/
def blankLine (line : Line) : Bool := (decodeRunes line).all unicodeIsSpace

/-- The loop of `scanPara` on the lines the scanner still holds, `para` being
the slice built so far: the paragraph, the flag, and the lines left in the
scanner. -/
def scanParaFrom : List Line → List Line → List Line × Bool × List Line
  | [], para => (para, false, [])
  | line :: r, para =>
    if blankLine line then (para, true, r)
    else scanParaFrom r (para ++ [line])

/-- The function `scanPara`, entered with `para` nil. -/
def scanPara (r : List Line) : List Line × Bool × List Line := scanParaFrom r []

/-- How a loop of `main` ends: it completes having written the lines `out`
(each followed by a newline), it panics, or the step budget of the model is
used up. -/
inductive Run where
  | done (out : List Line)
  | panic
  | outOfFuel
  deriving DecidableEq

/-- The join loop `for n < minLen` (lines 38-50) on the current `line` and
paragraph index `i`, `tail` being `para[i+1:]`: an empty `tail` is
`i+1 == len(para)`.  The result is the line and index the loop leaves, `none`
when `line[len(line)-1]` is out of range. -/
def joinLoop (isLetter : Nat → Bool) (min : Int) : Line → Nat → List Line → Option (Line × Nat)
  | line, i, [] => some (line, i)
  | line, i, next :: tail =>
    if (utf8RuneCount line : Int) < min then
      if isLiteral isLetter next then some (line, i)
      else
        match line.getLast? with
        | none => none
        | some c =>
          joinLoop isLetter min ((if c ≠ 32 then line ++ [32] else line) ++ next) (i + 1) tail
    else some (line, i)

/-- The scan `for ; i >= 0; i-- { if rs[i] == ' ' { break } }` (lines 58-62)
entered with `i = k`: the value of `i` it leaves, `-1` when no space is found,
and `none` when `rs[i]` is out of range. -/
def scanSpace (rs : List Nat) : Nat → Option Int
  | 0 =>
    match rs[0]? with
    | none => none
    | some r => if r = 32 then some 0 else some (-1)
  | k + 1 =>
    match rs[k + 1]? with
    | none => none
    | some r => if r = 32 then some ((k : Int) + 1) else scanSpace rs k

/-- Lines 66-78 of `main`, where `i` is the variable declared at line 57 (the
split index, not the paragraph index of the enclosing loop): the paragraph
after `rest` is put in, `none` when `rest[len(rest)-1]` is out of range.

In the literal branch `append(para[:i+1], rest)` stores `rest` at index `i+1`
of the array of `para` (as `i+1 < len(para) ≤ cap(para)`), and the outer
`append` then puts elements `0..i+1` of that array after elements
`i+1..len(para)-1`. -/
def insertRest (isLetter : Nat → Bool) (para : List Line) (i : Nat) (rest : Line) :
    Option (List Line) :=
  if i + 1 < para.length then
    if isLiteral isLetter (para.getD (i + 1) []) then
      some ((para.set (i + 1) rest).drop (i + 1) ++ (para.set (i + 1) rest).take (i + 2))
    else
      match rest.getLast? with
      | none => none
      | some c =>
        some (para.set (i + 1) ((if c ≠ 32 then rest ++ [32] else rest) ++ para.getD (i + 1) []))
  else some (para ++ [rest])

/-- The split block (lines 52-79) for a `line` longer than `maxLen`: the new
`line` (`first`) and the new paragraph, `none` on a panic (an index or slice
bound out of range). -/
def splitBlock (isLetter : Nat → Bool) (max : Int) (line : Line) (para : List Line) :
    Option (Line × List Line) :=
  match (if max < 0 then some max else scanSpace (decodeRunes line) max.toNat) with
  | none => none
  | some i =>
    if i < 0 then none
    else
      match encodeRunes ((decodeRunes line).take i.toNat),
          encodeRunes ((decodeRunes line).drop (i.toNat + 1)) with
      | some first, some rest => (insertRest isLetter para i.toNat rest).map fun p => (first, p)
      | _, _ => none

/-- The loop `for i := 0; i < len(para); i++` of `main` (lines 28-83) from the
state `para`, `i`, with `out` the lines written so far; each iteration uses one
unit of `fuel`. -/
def reflowLoop (isLetter : Nat → Bool) (min max : Int) :
    Nat → List Line → Nat → List Line → Run
  | 0, _, _, _ => Run.outOfFuel
  | fuel + 1, para, i, out =>
    if i < para.length then
      if isLiteral isLetter (para.getD i []) then
        reflowLoop isLetter min max fuel para (i + 1) (out ++ [para.getD i []])
      else
        match joinLoop isLetter min (para.getD i []) i (para.drop (i + 1)) with
        | none => Run.panic
        | some (line, j) =>
          if max < (utf8RuneCount line : Int) then
            match splitBlock isLetter max line para with
            | none => Run.panic
            | some (first, para1) =>
              reflowLoop isLetter min max fuel para1 (j + 1) (out ++ [first])
          else reflowLoop isLetter min max fuel para (j + 1) (out ++ [line])
    else Run.done out

/-- The reflow of one paragraph: the loop of lines 28-83 entered with `i = 0`
and nothing written. -/
def reflow (isLetter : Nat → Bool) (min max : Int) (para : List Line) (fuel : Nat) : Run :=
  reflowLoop isLetter min max fuel para 0 []

/-- The loop `for { ... }` of `main` (lines 26-90) on the lines `r` the scanner
still holds, with `out` the lines written so far; the separator written at line
89 is the empty line.  Each paragraph is reflowed with `pfuel` steps and each
iteration uses one unit of `fuel`.  Read errors of the scanner are left out. -/
def mainLoop (isLetter : Nat → Bool) (min max : Int) (pfuel : Nat) :
    Nat → List Line → List Line → Run
  | 0, _, _ => Run.outOfFuel
  | fuel + 1, r, out =>
    match reflow isLetter min max (scanPara r).1 pfuel with
    | Run.done lines =>
      if (scanPara r).2.1 then
        mainLoop isLetter min max pfuel fuel (scanPara r).2.2 (out ++ lines ++ [[]])
      else Run.done (out ++ lines)
    | Run.panic => Run.panic
    | Run.outOfFuel => Run.outOfFuel

/-! ## Notions used in the statements -/

/-- A Unicode scalar value: at most U+10FFFF and not a surrogate. -/
def validRune (r : Nat) : Prop := r ≤ 0x10FFFF ∧ ¬ (0xD800 ≤ r ∧ r ≤ 0xDFFF)

/-- The UTF-8 encoding of a sequence of runes: the encodings of its elements
one after the other. -/
def runesBytes : List Nat → Line
  | [] => []
  | r :: rs => runeBytes r ++ runesBytes rs

/-- The lines `ls` joined onto `acc` in order, a single space being put before
each appended line exactly when the accumulated line does not already end with
a space. -/
def joinLines : Line → List Line → Line
  | acc, [] => acc
  | acc, l :: ls => joinLines ((if acc.getLast? = some 32 then acc else acc ++ [32]) ++ l) ls

/-- The input made of the blocks `pbs`, each a paragraph and the blank line
that ends it, followed by the paragraph `last`. -/
def blocksInput : List (List Line × Line) → List Line → List Line
  | [], last => last
  | pb :: pbs, last => pb.1 ++ pb.2 :: blocksInput pbs last

/-- The results `res p` of the paragraphs of `blocksInput pbs last` in order,
with one empty line after the result of each paragraph of `pbs` and nothing
after the result of `last`. -/
def blocksOutput (res : List Line → List Line) :
    List (List Line × Line) → List Line → List Line
  | [], last => res last
  | pb :: pbs, last => res pb.1 ++ [] :: blocksOutput res pbs last

/-- The line `Hi.`. -/
def lineHi : Line := [0x48, 0x69, 0x2E]

/-- Whether the loop of lines 28-83, run on from the state `para`, `i`,
completes within `fuel` steps without entering the split block: the test
`n > maxLen` of line 52 fails in every iteration. -/
def noSplit (isLetter : Nat → Bool) (min max : Int) : Nat → List Line → Nat → Bool
  | 0, _, _ => false
  | fuel + 1, para, i =>
    if i < para.length then
      if isLiteral isLetter (para.getD i []) then noSplit isLetter min max fuel para (i + 1)
      else
        match joinLoop isLetter min (para.getD i []) i (para.drop (i + 1)) with
        | none => false
        | some (line, j) =>
          if max < (utf8RuneCount line : Int) then false
          else noSplit isLetter min max fuel para (j + 1)
    else true

/-- The rune counts of the lines `ls` added up, plus the number of lines. -/
def totalLength : List Line → Nat
  | [] => 0
  | l :: ls => utf8RuneCount l + 1 + totalLength ls

/-- The number of elements of `p` whose weight is at least `r`. -/
def countAtLeast {α : Type} (w : α → Nat) (r : Nat) (p : List α) : Nat :=
  p.countP (fun x => decide (r ≤ w x))

/-- A growth step of a loop over a list `s.1` with index `s.2`, as the reflow
loop makes when it splits the current line without joining: the index moves on
by one, the current element has weight at least `Q`, and a new element `rest`
of smaller weight is put at the end of the list, or the list is cut after at
most `Q` elements, the element at the cut is replaced by `rest`, and the part
before the cut is moved behind the part after it, followed by `rest` again. -/
def Grow {α : Type} (w : α → Nat) (dflt : α) (Q : Nat) (s s1 : List α × Nat) : Prop :=
  s1.2 = s.2 + 1 ∧ s.2 < s.1.length ∧ Q ≤ w (s.1.getD s.2 dflt) ∧
    ∃ rest : α, w rest < w (s.1.getD s.2 dflt) ∧
      (s1.1 = s.1 ++ [rest] ∨
        ∃ X l Y, s.1 = X ++ l :: Y ∧ X.length ≤ Q ∧ s1.1 = rest :: Y ++ (X ++ [rest]))

/-- The number of steps `u < t` of the chain `f` whose current element has weight
at least `r`. -/
def landings {α : Type} (w : α → Nat) (dflt : α) (f : Nat → List α × Nat) (r t : Nat) : Nat :=
  Nat.count (fun u => r ≤ w ((f u).1.getD (f u).2 dflt)) t

/-- The times at which the windows of the counting argument start: the first
at `2 * Q`, each next one as far on as the index `I0 + t` allows. -/
def winTime (Q I0 : Nat) : Nat → Nat
  | 0 => 2 * Q
  | k + 1 => winTime Q I0 k + (I0 + winTime Q I0 k - 1) / Q

/-- The runes of the lines `ls` in order, spaces left out. -/
def content : List Line → List Nat
  | [] => []
  | l :: ls => (decodeRunes l).filter (fun r => r != 32) ++ content ls

/-- An 80-character line: fifty `a`, a space at index 50, twenty-nine `b`. -/
def line80 : Line := List.replicate 50 0x61 ++ 0x20 :: List.replicate 29 0x62

/-- A literal line, `1.`. -/
def lineItem : Line := [0x31, 0x2E]

/-- A reflowable line of thirty `c`. -/
def line30 : Line := List.replicate 30 0x63

/-- A reflowable line of fifty `d`. -/
def line50 : Line := List.replicate 50 0x64

/-- A 79-character line whose only space at an index up to 75 is at index 1:
`a`, a space, seventy-four `x`, a space, `yy`. -/
def lineEarly : Line := 0x61 :: 0x20 :: (List.replicate 74 0x78 ++ [0x20, 0x79, 0x79])

/-- A reflowable line of eighty `x` with no space. -/
def lineNoSpace : Line := List.replicate 80 0x78

/-- A 76-character line that ends with a space at index 75: seventy-five `a`
and a space. -/
def line76 : Line := List.replicate 75 0x61 ++ [0x20]

/-- A paragraph of 77 lines: `line76` followed by seventy-six lines `b`. -/
def para77 : List Line := line76 :: List.replicate 76 [0x62]

/-! ## Decoding and encoding -/

theorem decode_ascii (p0 : Nat) (t : Line) (h : p0 < 0x80) :
    utf8DecodeRune (p0 :: t) = (p0, 1) := by
  simp [utf8DecodeRune, h]

theorem decode_two (p0 b1 : Nat) (t : Line) (h0 : 0xC2 ≤ p0) (h0' : p0 < 0xE0)
    (h1 : 0x80 ≤ b1) (h1' : b1 ≤ 0xBF) :
    utf8DecodeRune (p0 :: b1 :: t) = (p0 % 32 * 64 + b1 % 64, 2) := by
  have e1 : ¬ p0 < 0x80 := by omega
  have e2 : ¬ (p0 < 0xC2 ∨ 0xF5 ≤ p0) := by omega
  have e3 : leadSize p0 = 2 := by simp [leadSize, h0']
  have e4 : acceptLo p0 = 0x80 := by
    have a1 : p0 ≠ 0xE0 := by omega
    have a2 : p0 ≠ 0xF0 := by omega
    simp [acceptLo, a1, a2]
  have e5 : acceptHi p0 = 0xBF := by
    have a1 : p0 ≠ 0xED := by omega
    have a2 : p0 ≠ 0xF4 := by omega
    simp [acceptHi, a1, a2]
  have e6 : ¬ (b1 < 0x80 ∨ 0xBF < b1) := by omega
  simp only [utf8DecodeRune, List.length_cons, List.getD_cons_zero, List.getD_cons_succ, e3, e4, e5]
  rw [if_neg (by omega), if_neg e1, if_neg e2, if_neg (by omega), if_neg e6, if_pos (le_refl 2)]

theorem decode_three (p0 b1 b2 : Nat) (t : Line) (h0 : 0xE0 ≤ p0) (h0' : p0 < 0xF0)
    (h1 : acceptLo p0 ≤ b1) (h1' : b1 ≤ acceptHi p0) (h2 : 0x80 ≤ b2) (h2' : b2 ≤ 0xBF) :
    utf8DecodeRune (p0 :: b1 :: b2 :: t) = (p0 % 16 * 4096 + b1 % 64 * 64 + b2 % 64, 3) := by
  have e1 : ¬ p0 < 0x80 := by omega
  have e2 : ¬ (p0 < 0xC2 ∨ 0xF5 ≤ p0) := by omega
  have e3 : leadSize p0 = 3 := by
    have a1 : ¬ p0 < 0xE0 := by omega
    simp [leadSize, a1, h0']
  have e6 : ¬ (b1 < acceptLo p0 ∨ acceptHi p0 < b1) := by omega
  have e7 : ¬ (b2 < 0x80 ∨ 0xBF < b2) := by omega
  simp only [utf8DecodeRune, List.length_cons, List.getD_cons_zero, List.getD_cons_succ, e3]
  rw [if_neg (by omega), if_neg e1, if_neg e2, if_neg (by omega), if_neg e6, if_neg (by omega),
    if_neg e7, if_pos (le_refl 3)]

theorem decode_four (p0 b1 b2 b3 : Nat) (t : Line) (h0 : 0xF0 ≤ p0) (h0' : p0 < 0xF5)
    (h1 : acceptLo p0 ≤ b1) (h1' : b1 ≤ acceptHi p0) (h2 : 0x80 ≤ b2) (h2' : b2 ≤ 0xBF)
    (h3 : 0x80 ≤ b3) (h3' : b3 ≤ 0xBF) :
    utf8DecodeRune (p0 :: b1 :: b2 :: b3 :: t)
      = (p0 % 8 * 262144 + b1 % 64 * 4096 + b2 % 64 * 64 + b3 % 64, 4) := by
  have e1 : ¬ p0 < 0x80 := by omega
  have e2 : ¬ (p0 < 0xC2 ∨ 0xF5 ≤ p0) := by omega
  have e3 : leadSize p0 = 4 := by
    have a1 : ¬ p0 < 0xE0 := by omega
    have a2 : ¬ p0 < 0xF0 := by omega
    simp [leadSize, a1, a2]
  have e6 : ¬ (b1 < acceptLo p0 ∨ acceptHi p0 < b1) := by omega
  have e7 : ¬ (b2 < 0x80 ∨ 0xBF < b2) := by omega
  have e8 : ¬ (b3 < 0x80 ∨ 0xBF < b3) := by omega
  simp only [utf8DecodeRune, List.length_cons, List.getD_cons_zero, List.getD_cons_succ, e3]
  rw [if_neg (by omega), if_neg e1, if_neg e2, if_neg (by omega), if_neg e6, if_neg (by omega),
    if_neg e7, if_neg (by omega), if_neg e8]

theorem decode_runeBytes (r : Nat) (hr : validRune r) (t : Line) :
    utf8DecodeRune (runeBytes r ++ t) = (r, (runeBytes r).length) := by
  unfold validRune at hr
  unfold runeBytes
  split_ifs with h1 h2 h3 h4
  · rw [List.singleton_append, decode_ascii _ _ (by omega)]; rfl
  · have := decode_two (0xC0 + r / 64) (0x80 + r % 64) t (by omega) (by omega) (by omega) (by omega)
    simp only [List.cons_append, List.nil_append, this, List.length_cons, List.length_nil,
      Prod.mk.injEq, and_true]
    omega
  · omega
  · have hlo : acceptLo (0xE0 + r / 4096) ≤ 0x80 + r / 64 % 64 := by
      unfold acceptLo; split_ifs <;> omega
    have hhi : 0x80 + r / 64 % 64 ≤ acceptHi (0xE0 + r / 4096) := by
      unfold acceptHi; split_ifs <;> omega
    have := decode_three (0xE0 + r / 4096) (0x80 + r / 64 % 64) (0x80 + r % 64) t
      (by omega) (by omega) hlo hhi (by omega) (by omega)
    simp only [List.cons_append, List.nil_append, this, List.length_cons, List.length_nil,
      Prod.mk.injEq, and_true]
    omega
  · have hlo : acceptLo (0xF0 + r / 262144) ≤ 0x80 + r / 4096 % 64 := by
      unfold acceptLo; split_ifs <;> omega
    have hhi : 0x80 + r / 4096 % 64 ≤ acceptHi (0xF0 + r / 262144) := by
      unfold acceptHi; split_ifs <;> omega
    have := decode_four (0xF0 + r / 262144) (0x80 + r / 4096 % 64) (0x80 + r / 64 % 64)
      (0x80 + r % 64) t (by omega) (by omega) hlo hhi (by omega) (by omega) (by omega) (by omega)
    simp only [List.cons_append, List.nil_append, this, List.length_cons, List.length_nil,
      Prod.mk.injEq, and_true]
    omega

theorem runeBytes_one (r : Nat) (h : r ≤ 0x7F) : runeBytes r = [r] := by
  simp [runeBytes, h]

theorem runeBytes_two (r : Nat) (h1 : 0x80 ≤ r) (h2 : r ≤ 0x7FF) :
    runeBytes r = [0xC0 + r / 64, 0x80 + r % 64] := by
  have a : ¬ r ≤ 0x7F := by omega
  simp [runeBytes, a, h2]

theorem runeBytes_three (r : Nat) (h1 : 0x800 ≤ r) (h2 : r ≤ 0xFFFF)
    (h3 : ¬ (0xD800 ≤ r ∧ r ≤ 0xDFFF)) :
    runeBytes r = [0xE0 + r / 4096, 0x80 + r / 64 % 64, 0x80 + r % 64] := by
  have a : ¬ r ≤ 0x7F := by omega
  have b : ¬ r ≤ 0x7FF := by omega
  have c : ¬ (0x10FFFF < r ∨ (0xD800 ≤ r ∧ r ≤ 0xDFFF)) := by omega
  simp only [runeBytes]
  rw [if_neg a, if_neg b, if_neg c, if_pos h2]

theorem runeBytes_four (r : Nat) (h1 : 0x10000 ≤ r) (h2 : r ≤ 0x10FFFF) :
    runeBytes r
      = [0xF0 + r / 262144, 0x80 + r / 4096 % 64, 0x80 + r / 64 % 64, 0x80 + r % 64] := by
  have a : ¬ r ≤ 0x7F := by omega
  have b : ¬ r ≤ 0x7FF := by omega
  have c : ¬ (0x10FFFF < r ∨ (0xD800 ≤ r ∧ r ≤ 0xDFFF)) := by omega
  have d : ¬ r ≤ 0xFFFF := by omega
  simp only [runeBytes]
  rw [if_neg a, if_neg b, if_neg c, if_neg d]

theorem decode_cases (p : Line) (hp : p ≠ []) :
    utf8DecodeRune p = (RuneError, 1) ∨ ∃ r t, validRune r ∧ p = runeBytes r ++ t := by
  rcases p with _ | ⟨p0, t⟩
  · exact absurd rfl hp
  by_cases hA : p0 < 0x80
  · right
    refine ⟨p0, t, ?_, ?_⟩
    · unfold validRune; omega
    · have : p0 ≤ 0x7F := by omega
      simp [runeBytes, this]
  by_cases hX : p0 < 0xC2 ∨ 0xF5 ≤ p0
  · left
    simp [utf8DecodeRune, hA, hX]
  by_cases hlen : (p0 :: t).length < leadSize p0
  · left
    simp only [utf8DecodeRune]
    rw [if_neg (by simp), List.getD_cons_zero, if_neg hA, if_neg hX, if_pos hlen]
  rcases t with _ | ⟨b1, t⟩
  · exfalso; apply hlen; unfold leadSize; split_ifs <;> simp
  by_cases h1 : b1 < acceptLo p0 ∨ acceptHi p0 < b1
  · left
    simp only [utf8DecodeRune]
    rw [if_neg (by simp), List.getD_cons_zero, if_neg hA, if_neg hX, if_neg hlen]
    simp only [List.getD_cons_succ, List.getD_cons_zero]
    rw [if_pos h1]
  have hb1 : 0x80 ≤ b1 ∧ b1 ≤ 0xBF := by
    unfold acceptLo acceptHi at h1; split_ifs at h1 <;> omega
  by_cases h2b : p0 < 0xE0
  · right
    refine ⟨p0 % 32 * 64 + b1 % 64, t, ?_, ?_⟩
    · unfold validRune; omega
    · rw [runeBytes_two _ (by omega) (by omega)]
      simp only [List.cons_append, List.nil_append, List.cons.injEq, and_true]
      omega
  rcases t with _ | ⟨b2, t⟩
  · exfalso; apply hlen; unfold leadSize; split_ifs <;> simp
  have hfail2 : (b2 < 0x80 ∨ 0xBF < b2) → utf8DecodeRune (p0 :: b1 :: b2 :: t) = (RuneError, 1) := by
    intro h2
    have : ¬ leadSize p0 ≤ 2 := by unfold leadSize; split_ifs <;> omega
    simp only [utf8DecodeRune]
    rw [if_neg (by simp), List.getD_cons_zero, if_neg hA, if_neg hX, if_neg hlen]
    simp only [List.getD_cons_succ, List.getD_cons_zero]
    rw [if_neg h1, if_neg this, if_pos h2]
  by_cases h2 : b2 < 0x80 ∨ 0xBF < b2
  · left; exact hfail2 h2
  by_cases h3b : p0 < 0xF0
  · right
    refine ⟨p0 % 16 * 4096 + b1 % 64 * 64 + b2 % 64, t, ?_, ?_⟩
    · unfold validRune
      unfold acceptLo acceptHi at h1; split_ifs at h1 <;> omega
    · have hge : 0x800 ≤ p0 % 16 * 4096 + b1 % 64 * 64 + b2 % 64 := by
        unfold acceptLo acceptHi at h1; split_ifs at h1 <;> omega
      have hns : ¬ (0xD800 ≤ p0 % 16 * 4096 + b1 % 64 * 64 + b2 % 64
          ∧ p0 % 16 * 4096 + b1 % 64 * 64 + b2 % 64 ≤ 0xDFFF) := by
        unfold acceptLo acceptHi at h1; split_ifs at h1 <;> omega
      rw [runeBytes_three _ hge (by omega) hns]
      simp only [List.cons_append, List.nil_append, List.cons.injEq, and_true]
      omega
  rcases t with _ | ⟨b3, t⟩
  · exfalso; apply hlen; unfold leadSize; split_ifs; simp
  by_cases h3 : b3 < 0x80 ∨ 0xBF < b3
  · left
    have l2 : ¬ leadSize p0 ≤ 2 := by unfold leadSize; split_ifs; omega
    have l3 : ¬ leadSize p0 ≤ 3 := by unfold leadSize; split_ifs; omega
    simp only [utf8DecodeRune]
    rw [if_neg (by simp), List.getD_cons_zero, if_neg hA, if_neg hX, if_neg hlen]
    simp only [List.getD_cons_succ, List.getD_cons_zero]
    rw [if_neg h1, if_neg l2, if_neg h2, if_neg l3, if_pos h3]
  right
  refine ⟨p0 % 8 * 262144 + b1 % 64 * 4096 + b2 % 64 * 64 + b3 % 64, t, ?_, ?_⟩
  · unfold validRune
    unfold acceptLo acceptHi at h1; split_ifs at h1 <;> omega
  · have hge : 0x10000 ≤ p0 % 8 * 262144 + b1 % 64 * 4096 + b2 % 64 * 64 + b3 % 64 := by
      unfold acceptLo acceptHi at h1; split_ifs at h1 <;> omega
    have hle : p0 % 8 * 262144 + b1 % 64 * 4096 + b2 % 64 * 64 + b3 % 64 ≤ 0x10FFFF := by
      unfold acceptLo acceptHi at h1; split_ifs at h1 <;> omega
    rw [runeBytes_four _ hge hle]
    simp only [List.cons_append, List.nil_append, List.cons.injEq, and_true]
    omega

theorem decode_nil : utf8DecodeRune [] = (RuneError, 0) := rfl

theorem first_of_starts (r : Nat) (hr : validRune r) (line : Line) (h : runeBytes r <+: line) :
    (utf8DecodeRune line).1 = r := by
  obtain ⟨t, rfl⟩ := h
  rw [decode_runeBytes r hr t]

theorem first_cases (line : Line) :
    (utf8DecodeRune line).1 = RuneError ∨
      ∃ r, validRune r ∧ runeBytes r <+: line ∧ (utf8DecodeRune line).1 = r := by
  by_cases hl : line = []
  · left; rw [hl]; rfl
  rcases decode_cases line hl with h | ⟨r, t, hr, ht⟩
  · left; rw [h]
  · right
    have hp : runeBytes r <+: line := ⟨t, ht.symm⟩
    exact ⟨r, hr, hp, first_of_starts r hr line hp⟩

theorem isLiteral_eq_false (isLetter : Nat → Bool) (line : Line) :
    isLiteral isLetter line = false ↔
      (utf8DecodeRune line).1 ≠ RuneError ∧ isLetter (utf8DecodeRune line).1 = true := by
  simp [isLiteral]

/-- C1: `isLiteral` answers false exactly when the line begins with the UTF-8
encoding of a Unicode scalar value that is a letter (the letter table answering
false for U+FFFD); so it answers true for the empty line, for a line that begins
with no valid encoding, and for a line whose first character is not a letter. -/
theorem isLiteral_false_iff_first_letter (isLetter : Nat → Bool)
    (hErr : isLetter RuneError = false) (line : Line) :
    (isLiteral isLetter line = false ↔
        ∃ r, validRune r ∧ runeBytes r <+: line ∧ isLetter r = true)
      ∧ isLiteral isLetter [] = true
      ∧ ((∀ r, validRune r → ¬ runeBytes r <+: line) → isLiteral isLetter line = true)
      ∧ (∀ r, validRune r → runeBytes r <+: line → isLetter r = false →
          isLiteral isLetter line = true) := by
  refine ⟨?_, ?_, ?_, ?_⟩
  · rw [isLiteral_eq_false]
    constructor
    · rintro ⟨hne, hlet⟩
      rcases first_cases line with h | ⟨r, hr, hp, he⟩
      · exact absurd h hne
      · exact ⟨r, hr, hp, he ▸ hlet⟩
    · rintro ⟨r, hr, hp, hlet⟩
      rw [first_of_starts r hr line hp]
      refine ⟨?_, hlet⟩
      intro h
      rw [h, hErr] at hlet
      exact Bool.false_ne_true hlet
  · simp [isLiteral, decode_nil]
  · intro hno
    rcases first_cases line with h | ⟨r, hr, hp, _⟩
    · simp [isLiteral, h]
    · exact absurd hp (hno r hr)
  · intro r hr hp hlet
    simp [isLiteral, first_of_starts r hr line hp, hlet]

/-- Witness of C1 with the Latin-1 letters, on the line `a.`. -/
theorem isLiteral_false_iff_first_letter_witness :
    isLiteral latin1Letter [0x61, 0x2E] = false ↔
      ∃ r, validRune r ∧ runeBytes r <+: [0x61, 0x2E] ∧ latin1Letter r = true :=
  (isLiteral_false_iff_first_letter latin1Letter (by decide) [0x61, 0x2E]).1


/-! ## The paragraph reader -/

theorem scanParaFrom_blank (pre : List Line) (b : Line) (post acc : List Line)
    (hpre : ∀ l ∈ pre, blankLine l = false) (hb : blankLine b = true) :
    scanParaFrom (pre ++ b :: post) acc = (acc ++ pre, true, post) := by
  induction pre generalizing acc with
  | nil => simp [scanParaFrom, hb]
  | cons l pre ih =>
    have hl : blankLine l = false := hpre l (List.mem_cons_self l pre)
    have hrest : ∀ x ∈ pre, blankLine x = false := fun x hx => hpre x (List.mem_cons_of_mem l hx)
    simp [scanParaFrom, hl, ih (acc ++ [l]) hrest]

theorem scanParaFrom_noblank (r acc : List Line) (h : ∀ l ∈ r, blankLine l = false) :
    scanParaFrom r acc = (acc ++ r, false, []) := by
  induction r generalizing acc with
  | nil => simp [scanParaFrom]
  | cons l r ih =>
    have hl : blankLine l = false := h l (List.mem_cons_self l r)
    have hrest : ∀ x ∈ r, blankLine x = false := fun x hx => h x (List.mem_cons_of_mem l hx)
    simp [scanParaFrom, hl, ih (acc ++ [l]) hrest]

theorem first_blank_split (r : List Line) (h : ∃ l ∈ r, blankLine l = true) :
    ∃ pre b post, r = pre ++ b :: post ∧ (∀ l ∈ pre, blankLine l = false)
      ∧ blankLine b = true := by
  induction r with
  | nil => obtain ⟨l, hl, _⟩ := h; cases hl
  | cons x r ih =>
    by_cases hx : blankLine x = true
    · exact ⟨[], x, r, rfl, by simp, hx⟩
    · have hx' : blankLine x = false := by simpa using hx
      obtain ⟨l, hl, hbl⟩ := h
      have hmem : l ∈ r := by
        rcases List.mem_cons.mp hl with e | e
        · rw [e] at hbl; exact absurd hbl hx
        · exact e
      obtain ⟨pre, b, post, e, hpre, hb⟩ := ih ⟨l, hmem, hbl⟩
      refine ⟨x :: pre, b, post, by rw [e]; rfl, ?_, hb⟩
      intro y hy
      rcases List.mem_cons.mp hy with e' | e'
      · rw [e']; exact hx'
      · exact hpre y e'

/-- C2: when some remaining line is blank, `scanPara` returns the lines before
the first blank line with the flag true, the blank line being taken from the
scanner and left out; when no remaining line is blank it returns all of them
with the flag false; and the returned paragraph never holds a blank line. -/
theorem scanPara_paragraph (r : List Line) :
    ((∃ l ∈ r, blankLine l = true) →
        ∃ pre b post, r = pre ++ b :: post ∧ (∀ l ∈ pre, blankLine l = false)
          ∧ blankLine b = true ∧ scanPara r = (pre, true, post))
      ∧ ((∀ l ∈ r, blankLine l = false) → scanPara r = (r, false, []))
      ∧ (∀ l ∈ (scanPara r).1, blankLine l = false) := by
  have h1 : (∃ l ∈ r, blankLine l = true) →
      ∃ pre b post, r = pre ++ b :: post ∧ (∀ l ∈ pre, blankLine l = false)
        ∧ blankLine b = true ∧ scanPara r = (pre, true, post) := by
    intro h
    obtain ⟨pre, b, post, e, hpre, hb⟩ := first_blank_split r h
    refine ⟨pre, b, post, e, hpre, hb, ?_⟩
    rw [scanPara, e, scanParaFrom_blank pre b post [] hpre hb, List.nil_append]
  have h2 : (∀ l ∈ r, blankLine l = false) → scanPara r = (r, false, []) := by
    intro h
    rw [scanPara, scanParaFrom_noblank r [] h, List.nil_append]
  refine ⟨h1, h2, ?_⟩
  by_cases h : ∃ l ∈ r, blankLine l = true
  · obtain ⟨pre, b, post, _, hpre, _, e⟩ := h1 h
    rw [e]; exact hpre
  · have hno : ∀ l ∈ r, blankLine l = false := by
      intro l hl
      by_contra hc
      exact h ⟨l, hl, by simpa using hc⟩
    rw [h2 hno]; exact hno

/-- Witness of C2 on the lines `Hi.`, a line of a space and a tab, and `a`. -/
theorem scanPara_paragraph_witness :
    ∃ pre b post, [[0x48, 0x69, 0x2E], [0x20, 0x09], [0x61]] = pre ++ b :: post
      ∧ (∀ l ∈ pre, blankLine l = false) ∧ blankLine b = true
      ∧ scanPara [[0x48, 0x69, 0x2E], [0x20, 0x09], [0x61]] = (pre, true, post) :=
  (scanPara_paragraph [[0x48, 0x69, 0x2E], [0x20, 0x09], [0x61]]).1
    ⟨[0x20, 0x09], by decide, by decide⟩


/-! ## The reflow loop -/

theorem joinLoop_long (isLetter : Nat → Bool) (min : Int) (line : Line) (i : Nat)
    (tail : List Line) (h : min ≤ (utf8RuneCount line : Int)) :
    joinLoop isLetter min line i tail = some (line, i) := by
  cases tail with
  | nil => rfl
  | cons next tail =>
    have : ¬ (utf8RuneCount line : Int) < min := by omega
    simp [joinLoop, this]

theorem drop_eq_getD_cons (para : List Line) (i : Nat) (h : i < para.length) :
    para.drop i = para.getD i [] :: para.drop (i + 1) := by
  rw [List.getD_eq_getElem para [] h]
  exact List.drop_eq_getElem_cons h

theorem reflowLoop_fixed (isLetter : Nat → Bool) (min max : Int) (para : List Line)
    (h : ∀ l ∈ para, isLiteral isLetter l = true ∨
      (min ≤ (utf8RuneCount l : Int) ∧ (utf8RuneCount l : Int) ≤ max))
    (fuel i : Nat) (out : List Line) (hi : i ≤ para.length) (hf : para.length - i < fuel) :
    reflowLoop isLetter min max fuel para i out = Run.done (out ++ para.drop i) := by
  induction fuel generalizing i out with
  | zero => omega
  | succ fuel ih =>
    unfold reflowLoop
    by_cases hlt : i < para.length
    · rw [if_pos hlt]
      have hmem : para.getD i [] ∈ para := by
        rw [List.getD_eq_getElem para [] hlt]; exact List.getElem_mem hlt
      have hdrop := drop_eq_getD_cons para i hlt
      by_cases hlit : isLiteral isLetter (para.getD i []) = true
      · rw [if_pos hlit, ih (i + 1) _ hlt (by omega), hdrop]
        simp
      · rw [if_neg hlit]
        rcases h _ hmem with hl | ⟨hmin, hmax⟩
        · exact absurd hl hlit
        · rw [joinLoop_long isLetter min _ i _ hmin]
          simp only
          rw [if_neg (by omega), ih (i + 1) _ hlt (by omega), hdrop]
          simp
    · rw [if_neg hlt]
      have : i = para.length := by omega
      simp [this]

/-- C5: when every line of the paragraph is literal or has a rune count between
`min` and `max`, the reflow loop completes, given more steps than the paragraph
has lines, and writes exactly the lines of the paragraph; the count is of runes,
so a line may hold more than `max` bytes. -/
theorem reflow_fixed (isLetter : Nat → Bool) (min max : Int) (para : List Line)
    (h : ∀ l ∈ para, isLiteral isLetter l = true ∨
      (min ≤ (utf8RuneCount l : Int) ∧ (utf8RuneCount l : Int) ≤ max))
    (fuel : Nat) (hf : para.length < fuel) :
    reflow isLetter min max para fuel = Run.done para := by
  unfold reflow
  rw [reflowLoop_fixed isLetter min max para h fuel 0 [] (Nat.zero_le _) (by omega)]
  simp

/-- Witness of C5 with bounds 1 and 3: a line of two runes in four bytes, then a
literal line. -/
theorem reflow_fixed_witness :
    reflow latin1Letter 1 3 [[0xC3, 0xA9, 0xC3, 0xA9], [0x31, 0x2E]] 3
      = Run.done [[0xC3, 0xA9, 0xC3, 0xA9], [0x31, 0x2E]] :=
  reflow_fixed latin1Letter 1 3 [[0xC3, 0xA9, 0xC3, 0xA9], [0x31, 0x2E]]
    (by decide) 3 (by decide)


/-! ## `encodeRunes` and the round trip -/

theorem runeLen_eq_length (r : Nat) (hr : validRune r) :
    utf8RuneLen r = ((runeBytes r).length : Int) := by
  unfold validRune at hr
  unfold utf8RuneLen runeBytes
  split_ifs <;> first | rfl | omega

theorem runeBytes_length_pos (r : Nat) : 1 ≤ (runeBytes r).length := by
  unfold runeBytes
  split_ifs <;> simp

theorem foldl_runeLen (rs : List Nat) (hv : ∀ r ∈ rs, validRune r) (n0 : Int) :
    rs.foldl (fun n r => n + utf8RuneLen r) n0 = n0 + ((runesBytes rs).length : Int) := by
  induction rs generalizing n0 with
  | nil => simp [runesBytes]
  | cons r rs ih =>
    have hr : validRune r := hv r (List.mem_cons_self r rs)
    have hrs : ∀ x ∈ rs, validRune x := fun x hx => hv x (List.mem_cons_of_mem r hx)
    rw [List.foldl_cons, ih hrs, runeLen_eq_length r hr]
    simp only [runesBytes, List.length_append, Nat.cast_add]
    omega

theorem foldl_encode (rs : List Nat) (written : Line) (m : Nat)
    (hm : (runesBytes rs).length ≤ m) :
    rs.foldl
        (fun st r =>
          st.bind fun bi =>
            (utf8EncodeRune (bi.1.drop bi.2) r).map fun tk =>
              (bi.1.take bi.2 ++ tk.1, bi.2 + tk.2))
        (some (written ++ List.replicate m 0, written.length))
      = some (written ++ runesBytes rs ++ List.replicate (m - (runesBytes rs).length) 0,
          written.length + (runesBytes rs).length) := by
  induction rs generalizing written m with
  | nil => simp [runesBytes]
  | cons r rs ih =>
    simp only [runesBytes, List.length_append] at hm
    have hk : ¬ (List.replicate m 0).length < (runeBytes r).length := by
      rw [List.length_replicate]; omega
    have hstep : (some (written ++ List.replicate m 0, written.length)).bind (fun bi =>
          (utf8EncodeRune (bi.1.drop bi.2) r).map fun tk =>
            (bi.1.take bi.2 ++ tk.1, bi.2 + tk.2))
        = some ((written ++ runeBytes r) ++ List.replicate (m - (runeBytes r).length) 0,
            (written ++ runeBytes r).length) := by
      simp only [Option.some_bind, List.drop_left, List.take_left, utf8EncodeRune, if_neg hk,
        Option.map_some', List.drop_replicate, List.length_append, List.append_assoc]
    rw [List.foldl_cons, hstep, ih (written ++ runeBytes r) (m - (runeBytes r).length) (by omega)]
    simp only [runesBytes, List.length_append, List.append_assoc, Option.some.injEq,
      Prod.mk.injEq]
    refine ⟨?_, by omega⟩
    rw [Nat.sub_sub]

theorem encodeRunes_valid (rs : List Nat) (hv : ∀ r ∈ rs, validRune r) :
    encodeRunes rs = some (runesBytes rs) := by
  unfold encodeRunes
  simp only [foldl_runeLen rs hv 0, zero_add]
  rw [if_neg (by omega)]
  have h := foldl_encode rs [] (runesBytes rs).length (le_refl _)
  simp only [List.nil_append, List.length_nil, zero_add, Nat.sub_self, List.replicate_zero,
    List.append_nil] at h
  simp only [Int.toNat_ofNat]
  rw [h]
  rfl


theorem decode_size (p : Line) (hp : p ≠ []) :
    1 ≤ (utf8DecodeRune p).2 ∧ (utf8DecodeRune p).2 ≤ p.length := by
  have hlen : 1 ≤ p.length := by
    cases p with
    | nil => exact absurd rfl hp
    | cons a t => simp
  rcases decode_cases p hp with h | ⟨r, t, hr, ht⟩
  · rw [h]; exact ⟨le_refl 1, hlen⟩
  · have := decode_runeBytes r hr t
    rw [← ht] at this
    rw [this]
    refine ⟨runeBytes_length_pos r, ?_⟩
    rw [ht, List.length_append]
    omega

theorem decode_fst_valid (p : Line) : validRune (utf8DecodeRune p).1 := by
  by_cases hp : p = []
  · rw [hp, decode_nil]; unfold validRune RuneError; omega
  rcases decode_cases p hp with h | ⟨r, t, hr, ht⟩
  · rw [h]; unfold validRune RuneError; omega
  · have := decode_runeBytes r hr t
    rw [← ht] at this
    rw [this]; exact hr

theorem decodeAux_fuel (fuel : Nat) (p : Line) (h : p.length ≤ fuel) :
    decodeAux fuel p = decodeAux p.length p := by
  induction fuel using Nat.strong_induction_on generalizing p with
  | _ fuel ih =>
    cases p with
    | nil => cases fuel <;> simp [decodeAux]
    | cons a t =>
      cases fuel with
      | zero => simp at h
      | succ fuel =>
        have hs := decode_size (a :: t) (List.cons_ne_nil a t)
        have hd : ((a :: t).drop (utf8DecodeRune (a :: t)).2).length ≤ t.length := by
          rw [List.length_drop, List.length_cons]; omega
        simp only [List.length_cons] at h
        rw [List.length_cons]
        simp only [decodeAux, List.cons_ne_nil, if_false]
        rw [ih fuel (Nat.lt_succ_self fuel) _ (by omega)]
        by_cases ht : t.length = fuel
        · rw [ht, ih fuel (Nat.lt_succ_self fuel) _ (by omega)]
        · rw [ih t.length (by omega) _ hd]

theorem decodeRunes_nil : decodeRunes [] = [] := rfl

theorem decodeRunes_ne_nil (p : Line) (hp : p ≠ []) :
    decodeRunes p = (utf8DecodeRune p).1 :: decodeRunes (p.drop (utf8DecodeRune p).2) := by
  cases p with
  | nil => exact absurd rfl hp
  | cons a t =>
    have hs := decode_size (a :: t) (List.cons_ne_nil a t)
    unfold decodeRunes
    rw [List.length_cons]
    simp only [decodeAux, List.cons_ne_nil, if_false]
    rw [decodeAux_fuel t.length _ (by rw [List.length_drop, List.length_cons]; omega)]

theorem runeBytes_ne_nil (r : Nat) : runeBytes r ≠ [] := by
  intro h
  have := runeBytes_length_pos r
  rw [h] at this
  simp at this

theorem decodeRunes_runeBytes_append (r : Nat) (hr : validRune r) (t : Line) :
    decodeRunes (runeBytes r ++ t) = r :: decodeRunes t := by
  have hne : runeBytes r ++ t ≠ [] := by
    intro h
    exact runeBytes_ne_nil r (List.append_eq_nil.mp h).1
  rw [decodeRunes_ne_nil _ hne, decode_runeBytes r hr t]
  simp

theorem decodeRunes_runesBytes_append (rs : List Nat) (hv : ∀ r ∈ rs, validRune r) (t : Line) :
    decodeRunes (runesBytes rs ++ t) = rs ++ decodeRunes t := by
  induction rs with
  | nil => simp [runesBytes]
  | cons r rs ih =>
    have hr : validRune r := hv r (List.mem_cons_self r rs)
    have hrs : ∀ x ∈ rs, validRune x := fun x hx => hv x (List.mem_cons_of_mem r hx)
    rw [runesBytes, List.append_assoc, decodeRunes_runeBytes_append r hr, ih hrs]
    rfl

theorem decodeRunes_runesBytes (rs : List Nat) (hv : ∀ r ∈ rs, validRune r) :
    decodeRunes (runesBytes rs) = rs := by
  have := decodeRunes_runesBytes_append rs hv []
  simpa [decodeRunes_nil] using this

theorem decodeRunes_valid (p : Line) : ∀ r ∈ decodeRunes p, validRune r := by
  suffices H : ∀ n (q : Line), q.length = n → ∀ r ∈ decodeRunes q, validRune r from
    H p.length p rfl
  intro n
  induction n using Nat.strong_induction_on with
  | _ n ih =>
    intro q hn
    by_cases hq : q = []
    · rw [hq, decodeRunes_nil]; intro r hr; cases hr
    · have hs := decode_size q hq
      rw [decodeRunes_ne_nil q hq]
      intro r hr
      rcases List.mem_cons.mp hr with e | e
      · rw [e]; exact decode_fst_valid q
      · exact ih (q.drop (utf8DecodeRune q).2).length
          (by rw [List.length_drop]; omega) _ rfl r e

theorem runeCount_runesBytes (rs : List Nat) (hv : ∀ r ∈ rs, validRune r) :
    utf8RuneCount (runesBytes rs) = rs.length := by
  rw [utf8RuneCount, decodeRunes_runesBytes rs hv]


/-! ## The split block -/

theorem scanSpace_le (rs : List Nat) (k : Nat) (i : Int) (h : scanSpace rs k = some i) :
    i ≤ (k : Int) := by
  induction k with
  | zero =>
    unfold scanSpace at h
    split at h
    · cases h
    · split_ifs at h <;> simp at h <;> omega
  | succ k ih =>
    unfold scanSpace at h
    split at h
    · cases h
    · split_ifs at h
      · simp at h; omega
      · have := ih h; omega

theorem splitBlock_first (isLetter : Nat → Bool) (max : Int) (line first : Line)
    (para para1 : List Line) (h : splitBlock isLetter max line para = some (first, para1)) :
    ∃ s : Nat, (s : Int) ≤ max ∧ first = runesBytes ((decodeRunes line).take s) := by
  unfold splitBlock at h
  split at h
  · cases h
  · rename_i i hi
    split_ifs at h with hneg
    have hle : i ≤ max := by
      split_ifs at hi with hm
      · simp at hi; omega
      · have := scanSpace_le _ _ _ hi
        omega
    have hv1 : ∀ r ∈ (decodeRunes line).take i.toNat, validRune r :=
      fun r hr => decodeRunes_valid line r (List.mem_of_mem_take hr)
    have hv2 : ∀ r ∈ (decodeRunes line).drop (i.toNat + 1), validRune r :=
      fun r hr => decodeRunes_valid line r (List.mem_of_mem_drop hr)
    rw [encodeRunes_valid _ hv1, encodeRunes_valid _ hv2] at h
    simp only [Option.map_eq_some', Prod.mk.injEq] at h
    obtain ⟨p, _, hf, _⟩ := h
    exact ⟨i.toNat, by omega, hf.symm⟩

theorem runeCount_take_le (line : Line) (s : Nat) :
    utf8RuneCount (runesBytes ((decodeRunes line).take s)) ≤ s := by
  rw [runeCount_runesBytes _ (fun r hr => decodeRunes_valid line r (List.mem_of_mem_take hr))]
  rw [List.length_take]
  omega

theorem reflowLoop_out_bound (isLetter : Nat → Bool) (min max : Int) (fuel : Nat)
    (para : List Line) (i : Nat) (out0 out : List Line)
    (h : reflowLoop isLetter min max fuel para i out0 = Run.done out)
    (h0 : ∀ l ∈ out0, isLiteral isLetter l = false → (utf8RuneCount l : Int) ≤ max) :
    ∀ l ∈ out, isLiteral isLetter l = false → (utf8RuneCount l : Int) ≤ max := by
  induction fuel generalizing para i out0 with
  | zero => simp [reflowLoop] at h
  | succ fuel ih =>
    unfold reflowLoop at h
    split_ifs at h with hlt hlit
    · refine ih _ _ _ h ?_
      intro l hl hnl
      rcases List.mem_append.mp hl with e | e
      · exact h0 l e hnl
      · rw [List.mem_singleton.mp e, hlit] at hnl; cases hnl
    · split at h
      · cases h
      · rename_i line j hj
        split_ifs at h with hmax
        · split at h
          · cases h
          · rename_i first para1 hsp
            refine ih _ _ _ h ?_
            intro l hl hnl
            rcases List.mem_append.mp hl with e | e
            · exact h0 l e hnl
            · rw [List.mem_singleton.mp e]
              obtain ⟨s, hs, hf⟩ := splitBlock_first isLetter max line first para para1 hsp
              have := runeCount_take_le line s
              rw [hf]; omega
        · refine ih _ _ _ h ?_
          intro l hl hnl
          rcases List.mem_append.mp hl with e | e
          · exact h0 l e hnl
          · rw [List.mem_singleton.mp e]; omega
    · cases h
      exact h0

/-- C6: when the reflow loop completes, every line it has written that is not
literal has a rune count of at most `max`. -/
theorem reflow_output_le_max (isLetter : Nat → Bool) (min max : Int) (para : List Line)
    (fuel : Nat) (out : List Line) (h : reflow isLetter min max para fuel = Run.done out) :
    ∀ l ∈ out, isLiteral isLetter l = false → (utf8RuneCount l : Int) ≤ max :=
  reflowLoop_out_bound isLetter min max fuel para 0 [] out h (by simp)


/-! ## Decoding across a space -/

theorem runeBytes_tail_ge (r x : Nat) (hx : x ∈ (runeBytes r).tail) : 0x80 ≤ x := by
  unfold runeBytes at hx
  split_ifs at hx <;> simp at hx <;> omega

theorem decode_append_space (a b : Line) (ha : a ≠ []) :
    utf8DecodeRune (a ++ 32 :: b) = utf8DecodeRune a := by
  rcases decode_cases a ha with h | ⟨r, t, hr, ht⟩
  · rw [h]
    have hne : a ++ 32 :: b ≠ [] := by simp
    rcases decode_cases (a ++ 32 :: b) hne with h' | ⟨r, t', hr, ht'⟩
    · exact h'
    · exfalso
      have hpre : ∃ a', a = runeBytes r ++ a' := by
        rcases List.append_eq_append_iff.mp ht' with ⟨a', e1, e2⟩ | ⟨c', e1, _⟩
        · cases a' with
          | nil =>
            rw [List.append_nil] at e1
            exact ⟨[], by rw [List.append_nil]; exact e1.symm⟩
          | cons y a' =>
            exfalso
            have hy : y = 32 := by
              simp only [List.cons_append, List.cons.injEq] at e2
              exact e2.1.symm
            have : (32 : Nat) ∈ (runeBytes r).tail := by
              cases a with
              | nil => exact absurd rfl ha
              | cons x a0 => rw [e1, hy]; simp
            have := runeBytes_tail_ge r 32 this
            omega
        · exact ⟨c', e1⟩
      obtain ⟨a', ea⟩ := hpre
      have := decode_runeBytes r hr a'
      rw [← ea, h] at this
      have h1 : RuneError = r := congrArg Prod.fst this
      have h2 : 1 = (runeBytes r).length := congrArg Prod.snd this
      rw [← h1] at h2
      simp [runeBytes, RuneError] at h2
  · rw [ht, List.append_assoc, decode_runeBytes r hr, decode_runeBytes r hr]

theorem decodeRunes_append_space (a b : Line) :
    decodeRunes (a ++ 32 :: b) = decodeRunes a ++ 32 :: decodeRunes b := by
  suffices H : ∀ n (q : Line), q.length = n →
      decodeRunes (q ++ 32 :: b) = decodeRunes q ++ 32 :: decodeRunes b from H a.length a rfl
  intro n
  induction n using Nat.strong_induction_on with
  | _ n ih =>
    intro q hn
    by_cases hq : q = []
    · rw [hq, List.nil_append, decodeRunes_nil, List.nil_append,
        decodeRunes_ne_nil _ (List.cons_ne_nil 32 b), decode_ascii 32 b (by omega)]
      rfl
    · have hs := decode_size q hq
      rw [decodeRunes_ne_nil (q ++ 32 :: b) (by simp), decode_append_space q b hq,
        decodeRunes_ne_nil q hq, List.drop_append_of_le_length hs.2,
        ih (q.drop (utf8DecodeRune q).2).length (by rw [List.length_drop]; omega) _ rfl]
      rfl

theorem runeCount_append_space (a b : Line) :
    utf8RuneCount (a ++ 32 :: b) = utf8RuneCount a + 1 + utf8RuneCount b := by
  simp only [utf8RuneCount, decodeRunes_append_space, List.length_append, List.length_cons]
  omega

theorem runeCount_join_step (acc l : Line) :
    utf8RuneCount acc
      ≤ utf8RuneCount ((if acc.getLast? = some 32 then acc else acc ++ [32]) ++ l) := by
  split_ifs with h
  · obtain ⟨init, e⟩ : ∃ init, acc = init ++ [32] := by
      rcases List.getLast?_eq_some_iff.mp h with ⟨init, e⟩
      exact ⟨init, e⟩
    have h1 := runeCount_append_space init l
    have h2 := runeCount_append_space init []
    have h3 : utf8RuneCount [] = 0 := rfl
    rw [e, List.append_assoc, List.singleton_append, h1, h2, h3]
    omega
  · rw [List.append_assoc, List.singleton_append, runeCount_append_space]
    omega

theorem runeCount_joinLines_le (ls : List Line) (acc : Line) :
    utf8RuneCount acc ≤ utf8RuneCount (joinLines acc ls) := by
  induction ls generalizing acc with
  | nil => exact le_refl _
  | cons l ls ih =>
    rw [joinLines]
    exact le_trans (runeCount_join_step acc l) (ih _)

theorem joinLines_append (pre more : List Line) (acc : Line) :
    joinLines acc (pre ++ more) = joinLines (joinLines acc pre) more := by
  induction pre generalizing acc with
  | nil => rfl
  | cons l pre ih =>
    rw [List.cons_append, joinLines, joinLines]
    exact ih _


/-! ## The join loop -/

theorem isLiteral_nil (isLetter : Nat → Bool) : isLiteral isLetter [] = true := by
  simp [isLiteral, decode_nil]

theorem ne_nil_of_reflowable (isLetter : Nat → Bool) (l : Line)
    (h : isLiteral isLetter l = false) : l ≠ [] := by
  intro e
  rw [e, isLiteral_nil] at h
  cases h

theorem joinLoop_all (isLetter : Nat → Bool) (min : Int) (tail : List Line) (line : Line)
    (i : Nat) (hne : line ≠ []) (hlit : ∀ l ∈ tail, isLiteral isLetter l = false)
    (hshort : ∀ pre ls, tail = pre ++ ls → ls ≠ [] →
      (utf8RuneCount (joinLines line pre) : Int) < min) :
    joinLoop isLetter min line i tail = some (joinLines line tail, i + tail.length) := by
  induction tail generalizing line i with
  | nil => rfl
  | cons next t ih =>
    have hlt : (utf8RuneCount line : Int) < min :=
      hshort [] (next :: t) rfl (List.cons_ne_nil next t)
    have hnext : isLiteral isLetter next = false := hlit next (List.mem_cons_self next t)
    obtain ⟨c, hc⟩ : ∃ c, line.getLast? = some c := by
      cases h : line.getLast? with
      | none => exact absurd (List.getLast?_eq_none_iff.mp h) hne
      | some c => exact ⟨c, rfl⟩
    have hstep : (if c ≠ 32 then line ++ [32] else line)
        = (if line.getLast? = some 32 then line else line ++ [32]) := by
      rw [hc]
      by_cases h32 : c = 32
      · simp [h32]
      · simp [h32]
    unfold joinLoop
    rw [if_pos hlt, hnext]
    simp only [hc, Bool.false_eq_true, if_false]
    rw [hstep, ih _ (i + 1) ?_ (fun l hl => hlit l (List.mem_cons_of_mem next hl)) ?_]
    · rw [joinLines, List.length_cons]
      congr 2
      omega
    · intro e
      have := (List.append_eq_nil.mp e).1
      split_ifs at this
      · exact hne this
      · simp at this
    · intro pre ls e hls
      have := hshort (next :: pre) ls (by rw [e]; rfl) hls
      rw [joinLines] at this
      exact this

/-- C7: a paragraph of reflowable lines (two or more, or just one), in which the join of all
lines but the last has fewer than `min` runes and the join of all lines has at
most `max`, is written as one line: its lines in order, with a single space put
before each appended line exactly when the accumulated line does not end with a
space. -/
theorem reflow_join_all (isLetter : Nat → Bool) (min max : Int) (l0 : Line) (ls : List Line)
    (hlit : ∀ l ∈ l0 :: ls, isLiteral isLetter l = false)
    (hshort : (utf8RuneCount (joinLines l0 ls.dropLast) : Int) < min)
    (hfit : (utf8RuneCount (joinLines l0 ls) : Int) ≤ max)
    (fuel : Nat) (hf : 2 ≤ fuel) :
    reflow isLetter min max (l0 :: ls) fuel = Run.done [joinLines l0 ls] := by
  obtain ⟨fuel, rfl⟩ : ∃ f, fuel = f + 2 := ⟨fuel - 2, by omega⟩
  have h0 : isLiteral isLetter l0 = false := hlit l0 (List.mem_cons_self l0 ls)
  have hj : joinLoop isLetter min l0 0 ls = some (joinLines l0 ls, 0 + ls.length) := by
    refine joinLoop_all isLetter min ls l0 0 (ne_nil_of_reflowable isLetter l0 h0)
      (fun l hl => hlit l (List.mem_cons_of_mem l0 hl)) ?_
    intro pre more e hmore
    have hd : ls.dropLast = pre ++ more.dropLast := by
      rw [e, List.dropLast_append_of_ne_nil _ hmore]
    have hle := runeCount_joinLines_le more.dropLast (joinLines l0 pre)
    rw [← joinLines_append, ← hd] at hle
    omega
  unfold reflow reflowLoop
  rw [if_pos (by simp)]
  simp only [List.getD_cons_zero, h0, Bool.false_eq_true, if_false, zero_add, List.drop_one,
    List.tail_cons, hj]
  rw [if_neg (by omega)]
  unfold reflowLoop
  rw [if_neg (by simp)]
  rfl

/-- Witness of C7 at the package bounds: two lines of ten characters become one
line of twenty-one. -/
theorem reflow_join_all_witness :
    reflow latin1Letter minLen maxLen [List.replicate 10 0x61, List.replicate 10 0x62] 2
        = Run.done [joinLines (List.replicate 10 0x61) [List.replicate 10 0x62]]
      ∧ joinLines (List.replicate 10 0x61) [List.replicate 10 0x62]
        = List.replicate 10 0x61 ++ 0x20 :: List.replicate 10 0x62 :=
  ⟨reflow_join_all latin1Letter minLen maxLen (List.replicate 10 0x61) [List.replicate 10 0x62]
    (by decide) (by decide) (by decide) 2 (le_refl 2), by decide⟩


/-! ## Splitting a single line -/

theorem scanSpace_eq (rs : List Nat) (s k : Nat) (hk : k < rs.length) (hsk : s ≤ k)
    (hsp : rs[s]? = some 32) (hlast : ∀ j, s < j → j ≤ k → rs[j]? ≠ some 32) :
    scanSpace rs k = some (s : Int) := by
  induction k with
  | zero =>
    have : s = 0 := by omega
    subst this
    simp [scanSpace, hsp]
  | succ k ih =>
    by_cases hs : s = k + 1
    · subst hs
      simp [scanSpace, hsp]
    · have hne := hlast (k + 1) (by omega) (le_refl _)
      have hget : rs[k + 1]? = some (rs[k + 1]) := List.getElem?_eq_getElem hk
      rw [hget] at hne
      have hr : ¬ rs[k + 1] = 32 := fun e => hne (by rw [e])
      unfold scanSpace
      rw [hget]
      simp only [hr, if_false]
      exact ih (by omega) (by omega) (fun j h1 h2 => hlast j h1 (by omega))

theorem splitBlock_at (isLetter : Nat → Bool) (max : Int) (line : Line) (para : List Line)
    (s : Nat) (hlong : max < ((decodeRunes line).length : Int)) (hs : (s : Int) ≤ max)
    (hsp : (decodeRunes line)[s]? = some 32)
    (hlast : ∀ j, s < j → (j : Int) ≤ max → (decodeRunes line)[j]? ≠ some 32) :
    splitBlock isLetter max line para
      = (insertRest isLetter para s (runesBytes ((decodeRunes line).drop (s + 1)))).map
          fun p => (runesBytes ((decodeRunes line).take s), p) := by
  have hmax : ¬ max < 0 := by omega
  have hscan : scanSpace (decodeRunes line) max.toNat = some (s : Int) :=
    scanSpace_eq _ s max.toNat (by omega) (by omega) hsp
      (fun j h1 h2 => hlast j h1 (by omega))
  have hv1 : ∀ r ∈ (decodeRunes line).take s, validRune r :=
    fun r hr => decodeRunes_valid line r (List.mem_of_mem_take hr)
  have hv2 : ∀ r ∈ (decodeRunes line).drop (s + 1), validRune r :=
    fun r hr => decodeRunes_valid line r (List.mem_of_mem_drop hr)
  unfold splitBlock
  rw [if_neg hmax, hscan]
  simp only [Int.toNat_ofNat]
  rw [if_neg (by omega), encodeRunes_valid _ hv1, encodeRunes_valid _ hv2]

/-- C8: a paragraph of one reflowable line with more than `max` runes, whose
last space at an index at most `max` is at index `s` and which has at most `max`
runes after that space, is written as two lines: the encoding of the runes
before index `s` and the encoding of the runes after it. -/
theorem reflow_split_single (isLetter : Nat → Bool) (min max : Int) (line : Line) (s : Nat)
    (hlit : isLiteral isLetter line = false)
    (hlong : max < ((decodeRunes line).length : Int)) (hs : (s : Int) ≤ max)
    (hsp : (decodeRunes line)[s]? = some 32)
    (hlast : ∀ j, s < j → (j : Int) ≤ max → (decodeRunes line)[j]? ≠ some 32)
    (hrest : ((decodeRunes line).length : Int) - s - 1 ≤ max)
    (fuel : Nat) (hf : 3 ≤ fuel) :
    reflow isLetter min max [line] fuel
      = Run.done [runesBytes ((decodeRunes line).take s),
          runesBytes ((decodeRunes line).drop (s + 1))] := by
  obtain ⟨fuel, rfl⟩ : ∃ f, fuel = f + 3 := ⟨fuel - 3, by omega⟩
  have hsplit := splitBlock_at isLetter max line [line] s hlong hs hsp hlast
  have hins : insertRest isLetter [line] s (runesBytes ((decodeRunes line).drop (s + 1)))
      = some [line, runesBytes ((decodeRunes line).drop (s + 1))] := by
    unfold insertRest
    rw [if_neg (by simp)]
    rfl
  rw [hins] at hsplit
  have hcount : utf8RuneCount (runesBytes ((decodeRunes line).drop (s + 1)))
      = (decodeRunes line).length - (s + 1) := by
    rw [runeCount_runesBytes _
      (fun r hr => decodeRunes_valid line r (List.mem_of_mem_drop hr)), List.length_drop]
  unfold reflow reflowLoop
  rw [if_pos (by simp)]
  simp only [List.getD_cons_zero, hlit, Bool.false_eq_true, if_false, zero_add, List.drop_one,
    List.tail_cons, joinLoop]
  rw [if_pos (by unfold utf8RuneCount; exact hlong), hsplit]
  simp only [Option.map_some', List.nil_append]
  unfold reflowLoop
  rw [if_pos (by simp)]
  simp only [List.getD_cons_succ, List.getD_cons_zero]
  split_ifs with hl
  · unfold reflowLoop
    rw [if_neg (by simp)]
    rfl
  · simp only [List.drop_succ_cons, List.drop_nil, joinLoop, List.drop_zero]
    rw [if_neg (by rw [hcount]; omega)]
    unfold reflowLoop
    rw [if_neg (by simp)]
    rfl


set_option maxRecDepth 100000 in
/-- Witness of C8 at the package bounds: the 80-character line with its only
space at index 50 is written as its characters 0 to 49 and 51 to 79. -/
theorem reflow_split_single_witness :
    reflow latin1Letter minLen maxLen [line80] 3
        = Run.done [runesBytes ((decodeRunes line80).take 50),
            runesBytes ((decodeRunes line80).drop (50 + 1))]
      ∧ runesBytes ((decodeRunes line80).take 50) = List.replicate 50 0x61
      ∧ runesBytes ((decodeRunes line80).drop (50 + 1)) = List.replicate 29 0x62 :=
  ⟨reflow_split_single latin1Letter minLen maxLen line80 50
    (by decide) (by decide) (by decide) (by decide)
    (by
      intro j h1 h2
      have h3 : j ≤ 75 := by unfold maxLen at h2; omega
      interval_cases j <;> decide)
    (by decide) 3 (le_refl 3), by decide, by decide⟩

set_option maxRecDepth 100000 in
/-- Witness of C6 at the package bounds, on a run that splits a line: the first
line written is reflowable and has fifty runes. -/
theorem reflow_output_le_max_witness :
    reflow latin1Letter minLen maxLen [line80, lineItem] 4
        = Run.done [List.replicate 50 0x61, lineItem, List.replicate 29 0x62]
      ∧ isLiteral latin1Letter (List.replicate 50 0x61) = false
      ∧ (utf8RuneCount (List.replicate 50 0x61) : Int) ≤ maxLen :=
  ⟨by decide, by decide,
    reflow_output_le_max latin1Letter minLen maxLen [line80, lineItem] 4
      [List.replicate 50 0x61, lineItem, List.replicate 29 0x62] (by decide)
      (List.replicate 50 0x61) (List.mem_cons_self _ _) (by decide)⟩

/-! ## Runs of the split block with lines after the split line

In the split block the variable `i` declared at line 57 hides the paragraph
index, so lines 66-78 place `rest` by the split index.  The runs below are at
the package bounds 45 and 75. -/

set_option maxRecDepth 100000 in
/-- C3: on the paragraph `lineEarly`, `line30`, `1.` the loop completes and the
literal line `1.` is not among the lines written: the split index is 1, the line
at index 2 is literal, and line 69 stores `rest` over it. -/
theorem reflow_drops_literal :
    isLiteral latin1Letter lineItem = true
      ∧ reflow latin1Letter minLen maxLen [lineEarly, line30, lineItem] 6
        = Run.done [[0x61], [0x61], List.replicate 74 0x78, List.replicate 74 0x78,
            [0x79, 0x79] ++ 0x20 :: line30 ++ [0x20, 0x79, 0x79]]
      ∧ lineItem ∉ [[0x61], [0x61], List.replicate 74 0x78, List.replicate 74 0x78,
            [0x79, 0x79] ++ 0x20 :: line30 ++ [0x20, 0x79, 0x79]] := by
  decide

set_option maxRecDepth 100000 in
/-- C4: on the paragraph `line50`, `line50`, `lineEarly` the loop completes
having written `line50`, `line50`, `a`: the seventy-four `x` and the `yy` of the
third line are written nowhere, so the runes written, spaces left out, are not
those of the paragraph. -/
theorem reflow_loses_content :
    reflow latin1Letter minLen maxLen [line50, line50, lineEarly] 4
        = Run.done [line50, line50, [0x61]]
      ∧ content [line50, line50, [0x61]] ≠ content [line50, line50, lineEarly] := by
  decide

set_option maxRecDepth 100000 in
/-- C9: on the paragraph `line80`, `1.` the loop writes the first part, then the
literal line, then the remainder: the remainder is appended to the end of the
paragraph, after the literal line and not before it. -/
theorem reflow_rest_after_literal :
    reflow latin1Letter minLen maxLen [line80, lineItem] 4
        = Run.done [List.replicate 50 0x61, lineItem, List.replicate 29 0x62]
      ∧ reflow latin1Letter minLen maxLen [line80, lineItem] 4
        ≠ Run.done [List.replicate 50 0x61, List.replicate 29 0x62, lineItem] := by
  decide

set_option maxRecDepth 100000 in
/-- C10: on the paragraph `line80`, `line30` the loop writes the first part and
then `line30` joined with the remainder behind it: the remainder is appended to
the end of the paragraph and not put in front of the following line. -/
theorem reflow_rest_after_next :
    reflow latin1Letter minLen maxLen [line80, line30] 4
        = Run.done [List.replicate 50 0x61, line30 ++ 0x20 :: List.replicate 29 0x62]
      ∧ reflow latin1Letter minLen maxLen [line80, line30] 4
        ≠ Run.done [List.replicate 50 0x61, List.replicate 29 0x62 ++ 0x20 :: line30] := by
  decide


/-! ## Panics of the split block -/

set_option maxRecDepth 100000 in
/-- C11: on the paragraph of one line of eighty `x`, which has no space, the
scan of lines 58-62 leaves `i = -1`, the slice `rs[:i]` is out of range, and the
loop panics in its first iteration, whatever the number of steps allowed. -/
theorem reflow_no_space_panics :
    scanSpace (decodeRunes lineNoSpace) maxLen.toNat = some (-1)
      ∧ splitBlock latin1Letter maxLen lineNoSpace [lineNoSpace] = none
      ∧ ∀ fuel, reflow latin1Letter minLen maxLen [lineNoSpace] (fuel + 1) = Run.panic := by
  have h1 : isLiteral latin1Letter lineNoSpace = false := by decide
  have h2 : joinLoop latin1Letter minLen lineNoSpace 0 [] = some (lineNoSpace, 0) := rfl
  have h3 : maxLen < (utf8RuneCount lineNoSpace : Int) := by decide
  have h4 : splitBlock latin1Letter maxLen lineNoSpace [lineNoSpace] = none := by decide
  refine ⟨by decide, h4, ?_⟩
  intro fuel
  simp [reflow, reflowLoop, h1, h2, h3, h4]

set_option maxRecDepth 100000 in
/-- C16: on the paragraph `para77` the first line has 76 runes and ends with a
space at index 75, so `rest` is empty; the line at index 76 is reflowable, so
line 71 reads `rest[len(rest)-1]` and the loop panics in its first iteration. -/
theorem reflow_empty_rest_panics :
    scanSpace (decodeRunes line76) maxLen.toNat = some 75
      ∧ encodeRunes ((decodeRunes line76).drop (75 + 1)) = some []
      ∧ isLiteral latin1Letter (para77.getD (75 + 1) []) = false
      ∧ insertRest latin1Letter para77 75 [] = none
      ∧ ∀ fuel, reflow latin1Letter minLen maxLen para77 (fuel + 1) = Run.panic := by
  have h1 : isLiteral latin1Letter line76 = false := by decide
  have h2 : joinLoop latin1Letter minLen line76 0 (List.replicate 76 [0x62])
      = some (line76, 0) := by decide
  have h3 : maxLen < (utf8RuneCount line76 : Int) := by decide
  have h4 : splitBlock latin1Letter maxLen line76 para77 = none := by decide
  refine ⟨by decide, by decide, by decide, by decide, ?_⟩
  intro fuel
  have h5 : para77.drop (0 + 1) = List.replicate 76 [0x62] := by decide
  have h6 : para77.getD 0 [] = line76 := rfl
  have h7 : 0 < para77.length := by decide
  unfold reflow reflowLoop
  rw [if_pos h7, h6, h5, h2]
  simp only [h1, Bool.false_eq_true, if_false]
  rw [if_pos h3, h4]


/-! ## `encodeRunes` on a valid line, and the accesses of the loop -/

theorem runesBytes_append (a b : List Nat) :
    runesBytes (a ++ b) = runesBytes a ++ runesBytes b := by
  induction a with
  | nil => rfl
  | cons r a ih =>
    rw [List.cons_append, runesBytes, runesBytes, ih, List.append_assoc]

theorem scanSpace_space (rs : List Nat) (k : Nat) (v : Int) (h : scanSpace rs k = some v)
    (hv : 0 ≤ v) : rs[v.toNat]? = some 32 := by
  induction k with
  | zero =>
    unfold scanSpace at h
    split at h
    · cases h
    · rename_i r hr
      split_ifs at h with h32
      · simp only [Option.some.injEq] at h
        subst h
        simpa [h32] using hr
      · simp only [Option.some.injEq] at h
        omega
  | succ k ih =>
    unfold scanSpace at h
    split at h
    · cases h
    · rename_i r hr
      split_ifs at h with h32
      · simp only [Option.some.injEq] at h
        subst h
        have : ((k : Int) + 1).toNat = k + 1 := by omega
        rw [this, hr, h32]
      · exact ih h

theorem split_at_space (rs : List Nat) (s : Nat) (h : rs[s]? = some 32) :
    runesBytes rs = runesBytes (rs.take s) ++ 32 :: runesBytes (rs.drop (s + 1)) := by
  have hlt : s < rs.length := by
    by_contra hc
    rw [List.getElem?_eq_none (by omega)] at h
    cases h
  have hget : rs[s] = 32 := by
    rw [List.getElem?_eq_getElem hlt] at h
    exact Option.some.inj h
  have e : rs = rs.take s ++ 32 :: rs.drop (s + 1) := by
    conv_lhs => rw [← List.take_append_drop s rs, List.drop_eq_getElem_cons hlt, hget]
  conv_lhs => rw [e]
  rw [runesBytes_append, runesBytes, runeBytes_one 32 (by omega)]
  rfl

/-- C17: for runes that are Unicode scalar values `encodeRunes` gives the
concatenation of their UTF-8 encodings, which decodes to the same runes and has
as many runes; and when the split block splits a line that is such an encoding,
`first` and `rest` are the bytes of the line before and after one space byte. -/
theorem encodeRunes_utf8 (rs : List Nat) (hv : ∀ r ∈ rs, validRune r) :
    encodeRunes rs = some (runesBytes rs)
      ∧ decodeRunes (runesBytes rs) = rs
      ∧ utf8RuneCount (runesBytes rs) = rs.length
      ∧ ∀ (isLetter : Nat → Bool) (max : Int) (para : List Line) (first : Line)
          (para1 : List Line),
          splitBlock isLetter max (runesBytes rs) para = some (first, para1) →
          ∃ (s : Nat) (rest : Line), rs[s]? = some 32 ∧ (s : Int) ≤ max
            ∧ encodeRunes (rs.take s) = some first ∧ encodeRunes (rs.drop (s + 1)) = some rest
            ∧ runesBytes rs = first ++ 32 :: rest
            ∧ insertRest isLetter para s rest = some para1 := by
  refine ⟨encodeRunes_valid rs hv, decodeRunes_runesBytes rs hv, runeCount_runesBytes rs hv, ?_⟩
  intro isLetter max para first para1 h
  have hv1 : ∀ n, ∀ r ∈ rs.take n, validRune r := fun n r hr => hv r (List.mem_of_mem_take hr)
  have hv2 : ∀ n, ∀ r ∈ rs.drop n, validRune r := fun n r hr => hv r (List.mem_of_mem_drop hr)
  unfold splitBlock at h
  rw [decodeRunes_runesBytes rs hv] at h
  split at h
  · cases h
  · rename_i i hi
    split_ifs at h with hneg
    have hmax : ¬ max < 0 := by
      intro hm
      rw [if_pos hm] at hi
      simp only [Option.some.injEq] at hi
      omega
    rw [if_neg hmax] at hi
    have hle := scanSpace_le _ _ _ hi
    have hsp := scanSpace_space _ _ _ hi (by omega)
    rw [encodeRunes_valid _ (hv1 _), encodeRunes_valid _ (hv2 _)] at h
    simp only [Option.map_eq_some', Prod.mk.injEq] at h
    obtain ⟨p, hp, hf, hp1⟩ := h
    refine ⟨i.toNat, runesBytes (rs.drop (i.toNat + 1)), hsp, by omega, ?_, ?_, ?_, ?_⟩
    · rw [encodeRunes_valid _ (hv1 _), hf]
    · exact encodeRunes_valid _ (hv2 _)
    · rw [← hf]; exact split_at_space rs i.toNat hsp
    · rw [hp, hp1]

/-- Witness of C17 on the runes `a`, U+00E9, space, U+20AC, U+1F600. -/
theorem encodeRunes_utf8_witness :
    encodeRunes [0x61, 0xE9, 0x20, 0x20AC, 0x1F600]
        = some (runesBytes [0x61, 0xE9, 0x20, 0x20AC, 0x1F600])
      ∧ decodeRunes (runesBytes [0x61, 0xE9, 0x20, 0x20AC, 0x1F600])
        = [0x61, 0xE9, 0x20, 0x20AC, 0x1F600]
      ∧ runesBytes [0x61, 0xE9, 0x20, 0x20AC, 0x1F600]
        = [0x61, 0xC3, 0xA9, 0x20, 0xE2, 0x82, 0xAC, 0xF0, 0x9F, 0x98, 0x80] :=
  ⟨(encodeRunes_utf8 [0x61, 0xE9, 0x20, 0x20AC, 0x1F600]
      (by intro r hr; simp at hr; rcases hr with h | h | h | h | h <;>
        (rw [h]; unfold validRune; omega))).1,
    (encodeRunes_utf8 [0x61, 0xE9, 0x20, 0x20AC, 0x1F600]
      (by intro r hr; simp at hr; rcases hr with h | h | h | h | h <;>
        (rw [h]; unfold validRune; omega))).2.1,
    by decide⟩

theorem joinLoop_some (isLetter : Nat → Bool) (min : Int) (tail : List Line) (line : Line)
    (i : Nat) (hne : line ≠ []) :
    ∃ line1 j, joinLoop isLetter min line i tail = some (line1, j) ∧ line1 ≠ [] := by
  induction tail generalizing line i with
  | nil => exact ⟨line, i, rfl, hne⟩
  | cons next t ih =>
    unfold joinLoop
    split_ifs with hlt hlit
    · exact ⟨line, i, rfl, hne⟩
    · obtain ⟨c, hc⟩ : ∃ c, line.getLast? = some c := by
        cases h : line.getLast? with
        | none => exact absurd (List.getLast?_eq_none_iff.mp h) hne
        | some c => exact ⟨c, rfl⟩
      simp only [hc]
      apply ih
      intro e
      have := (List.append_eq_nil.mp e).1
      split_ifs at this
      · simp at this
      · exact hne this
    · exact ⟨line, i, rfl, hne⟩

theorem scanSpace_some (rs : List Nat) (k : Nat) (hk : k < rs.length) :
    ∃ v, scanSpace rs k = some v := by
  induction k with
  | zero =>
    unfold scanSpace
    rw [List.getElem?_eq_getElem hk]
    simp only
    split_ifs
    · exact ⟨0, rfl⟩
    · exact ⟨-1, rfl⟩
  | succ k ih =>
    unfold scanSpace
    rw [List.getElem?_eq_getElem hk]
    simp only
    split_ifs
    · exact ⟨_, rfl⟩
    · exact ih (by omega)

/-- C18: in every state of the reflow loop whose current line `para[i]` is not
literal, the join loop never reads the last byte of an empty line (it returns a
line and an index, and the line is not empty), and when that line has more than
`max` runes, `max` not negative, every `rs[i]` of the split scan started at
index `max` is in range (the scan returns an index). -/
theorem loop_accesses_in_range (isLetter : Nat → Bool) (min max : Int) (para : List Line)
    (i : Nat) (hlit : isLiteral isLetter (para.getD i []) = false) :
    ∃ line j, joinLoop isLetter min (para.getD i []) i (para.drop (i + 1)) = some (line, j)
      ∧ line ≠ []
      ∧ (0 ≤ max → max < (utf8RuneCount line : Int) →
          max.toNat < (decodeRunes line).length
            ∧ ∃ v, scanSpace (decodeRunes line) max.toNat = some v) := by
  obtain ⟨line, j, hj, hne⟩ := joinLoop_some isLetter min (para.drop (i + 1)) (para.getD i []) i
    (ne_nil_of_reflowable isLetter _ hlit)
  refine ⟨line, j, hj, hne, ?_⟩
  intro h0 hlong
  have hk : max.toNat < (decodeRunes line).length := by
    unfold utf8RuneCount at hlong
    omega
  exact ⟨hk, scanSpace_some _ _ hk⟩

set_option maxRecDepth 100000 in
/-- Witness of C18 at the package bounds, on the paragraph `line30`, `line80`. -/
theorem loop_accesses_in_range_witness :
    ∃ line j, joinLoop latin1Letter minLen ([line30, line80].getD 0 []) 0
          ([line30, line80].drop (0 + 1)) = some (line, j)
      ∧ line ≠ []
      ∧ (0 ≤ maxLen → maxLen < (utf8RuneCount line : Int) →
          maxLen.toNat < (decodeRunes line).length
            ∧ ∃ v, scanSpace (decodeRunes line) maxLen.toNat = some v) :=
  loop_accesses_in_range latin1Letter minLen maxLen [line30, line80] 0 (by decide)


/-! ## The driver -/

theorem scanPara_block (p : List Line) (b : Line) (rest : List Line)
    (hp : ∀ l ∈ p, blankLine l = false) (hb : blankLine b = true) :
    scanPara (p ++ b :: rest) = (p, true, rest) := by
  rw [scanPara, scanParaFrom_blank p b rest [] hp hb, List.nil_append]

theorem scanPara_noblank (r : List Line) (h : ∀ l ∈ r, blankLine l = false) :
    scanPara r = (r, false, []) := by
  rw [scanPara, scanParaFrom_noblank r [] h, List.nil_append]

theorem mainLoop_blocks (isLetter : Nat → Bool) (min max : Int) (pfuel : Nat)
    (res : List Line → List Line) (pbs : List (List Line × Line)) (last : List Line)
    (hblocks : ∀ pb ∈ pbs, (∀ l ∈ pb.1, blankLine l = false) ∧ blankLine pb.2 = true
      ∧ reflow isLetter min max pb.1 pfuel = Run.done (res pb.1))
    (hlast : (∀ l ∈ last, blankLine l = false)
      ∧ reflow isLetter min max last pfuel = Run.done (res last))
    (fuel : Nat) (hf : pbs.length < fuel) (out0 : List Line) :
    mainLoop isLetter min max pfuel fuel (blocksInput pbs last) out0
      = Run.done (out0 ++ blocksOutput res pbs last) := by
  induction pbs generalizing fuel out0 with
  | nil =>
    obtain ⟨fuel, rfl⟩ : ∃ f, fuel = f + 1 := ⟨fuel - 1, by simp at hf; omega⟩
    simp only [blocksInput, blocksOutput, mainLoop, scanPara_noblank last hlast.1, hlast.2]
    simp
  | cons pb pbs ih =>
    obtain ⟨fuel, rfl⟩ : ∃ f, fuel = f + 1 := ⟨fuel - 1, by simp at hf; omega⟩
    obtain ⟨hp, hb, hr⟩ := hblocks pb (List.mem_cons_self pb pbs)
    have hrest : ∀ x ∈ pbs, (∀ l ∈ x.1, blankLine l = false) ∧ blankLine x.2 = true
        ∧ reflow isLetter min max x.1 pfuel = Run.done (res x.1) :=
      fun x hx => hblocks x (List.mem_cons_of_mem pb hx)
    simp only [blocksInput, blocksOutput, mainLoop, scanPara_block pb.1 pb.2 _ hp hb, hr]
    rw [if_pos trivial, ih hrest fuel (by simp at hf; omega)]
    simp

/-- C12: for an input made of paragraphs without blank lines, each but the last
followed by one blank line, and every paragraph reflowing to completion, the
driver writes the results of the paragraphs in order, with exactly one empty
line after the result of each paragraph but the last and nothing after the
result of the last. -/
theorem main_paragraphs (isLetter : Nat → Bool) (min max : Int) (pfuel : Nat)
    (res : List Line → List Line) (pbs : List (List Line × Line)) (last : List Line)
    (hblocks : ∀ pb ∈ pbs, (∀ l ∈ pb.1, blankLine l = false) ∧ blankLine pb.2 = true
      ∧ reflow isLetter min max pb.1 pfuel = Run.done (res pb.1))
    (hlast : (∀ l ∈ last, blankLine l = false)
      ∧ reflow isLetter min max last pfuel = Run.done (res last))
    (fuel : Nat) (hf : pbs.length < fuel) :
    mainLoop isLetter min max pfuel fuel (blocksInput pbs last) []
      = Run.done (blocksOutput res pbs last) := by
  rw [mainLoop_blocks isLetter min max pfuel res pbs last hblocks hlast fuel hf []]
  rfl

/-- Witness of C12 at the package bounds: the paragraphs `Hi.` and `1.` with a
line of a space and a tab between them. -/
theorem main_paragraphs_witness :
    mainLoop latin1Letter minLen maxLen 2 2
        (blocksInput [([lineHi], [0x20, 0x09])] [lineItem]) []
        = Run.done (blocksOutput id [([lineHi], [0x20, 0x09])] [lineItem])
      ∧ blocksInput [([lineHi], [0x20, 0x09])] [lineItem] = [lineHi, [0x20, 0x09], lineItem]
      ∧ blocksOutput id [([lineHi], [0x20, 0x09])] [lineItem] = [lineHi, [], lineItem] :=
  ⟨main_paragraphs latin1Letter minLen maxLen 2 id [([lineHi], [0x20, 0x09])] [lineItem]
      (by decide) (by decide) 2 (by decide), by decide, by decide⟩

/-- C13, as stated, fails: on the lines `Hi.` and an empty line the driver
writes `Hi.` and then an empty line. -/
theorem main_hi_trailing_blank :
    mainLoop latin1Letter minLen maxLen 2 2 [lineHi, []] [] = Run.done [lineHi, []]
      ∧ mainLoop latin1Letter minLen maxLen 2 2 [lineHi, []] [] ≠ Run.done [lineHi] := by
  decide

theorem reflow_nil (isLetter : Nat → Bool) (min max : Int) (pfuel : Nat) (hp : 0 < pfuel) :
    reflow isLetter min max [] pfuel = Run.done [] := by
  obtain ⟨pfuel, rfl⟩ : ∃ f, pfuel = f + 1 := ⟨pfuel - 1, by omega⟩
  rfl

theorem mainLoop_append_blank (isLetter : Nat → Bool) (min max : Int) (pfuel : Nat)
    (hp : 0 < pfuel) (b : Line) (hb : blankLine b = true) (fuel : Nat) (r out0 out : List Line)
    (h : mainLoop isLetter min max pfuel fuel r out0 = Run.done out) :
    mainLoop isLetter min max pfuel (fuel + 1) (r ++ [b]) out0 = Run.done (out ++ [[]]) := by
  induction fuel generalizing r out0 with
  | zero => simp [mainLoop] at h
  | succ fuel ih =>
    by_cases hex : ∃ l ∈ r, blankLine l = true
    · obtain ⟨pre, b1, post, e, hpre, hb1⟩ := first_blank_split r hex
      have e2 : r ++ [b] = pre ++ b1 :: (post ++ [b]) := by rw [e]; simp
      unfold mainLoop at h ⊢
      rw [e2, scanPara_block pre b1 _ hpre hb1]
      rw [e, scanPara_block pre b1 _ hpre hb1] at h
      simp only at h ⊢
      split at h
      · rename_i lines hl
        simp only [if_true] at h ⊢
        exact ih _ _ h
      · cases h
      · cases h
    · have hno : ∀ l ∈ r, blankLine l = false := by
        intro l hl
        by_contra hc
        exact hex ⟨l, hl, by simpa using hc⟩
      unfold mainLoop at h ⊢
      rw [scanPara_block r b [] hno hb]
      rw [scanPara_noblank r hno] at h
      simp only at h ⊢
      split at h
      · rename_i lines hl
        simp only [Bool.false_eq_true, if_false, Run.done.injEq] at h
        simp only [if_true]
        unfold mainLoop
        rw [scanPara_noblank [] (by simp), reflow_nil isLetter min max pfuel hp]
        simp [h]
      · cases h
      · cases h

theorem ends_blank_tail (pre post : List Line) (b1 : Line)
    (h : ∃ r00 b, pre ++ b1 :: post = r00 ++ [b] ∧ blankLine b = true) :
    post = [] ∨ ∃ r00 b, post = r00 ++ [b] ∧ blankLine b = true := by
  obtain ⟨r00, b, e, hb⟩ := h
  rcases List.eq_nil_or_concat post with hpost | ⟨post1, x, hpost⟩
  · exact Or.inl hpost
  · right
    rw [List.concat_eq_append] at hpost
    refine ⟨post1, x, hpost, ?_⟩
    have e2 : (pre ++ b1 :: post1) ++ [x] = r00 ++ [b] := by
      rw [← e, hpost]; simp
    have := List.append_inj_right' e2 rfl
    simp only [List.cons.injEq, and_true] at this
    rw [this]; exact hb

theorem mainLoop_final (isLetter : Nat → Bool) (min max : Int) (pfuel : Nat)
    (hp : 0 < pfuel) (fin : List Line) (hfin : ∀ l ∈ fin, blankLine l = false)
    (fuel : Nat) (r0 out0 : List Line)
    (h0 : r0 = [] ∨ ∃ r00 b, r0 = r00 ++ [b] ∧ blankLine b = true) :
    mainLoop isLetter min max pfuel fuel (r0 ++ fin) out0
      = (match mainLoop isLetter min max pfuel fuel r0 out0 with
          | Run.done out1 =>
            (match reflow isLetter min max fin pfuel with
              | Run.done lines => Run.done (out1 ++ lines)
              | Run.panic => Run.panic
              | Run.outOfFuel => Run.outOfFuel)
          | Run.panic => Run.panic
          | Run.outOfFuel => Run.outOfFuel) := by
  induction fuel generalizing r0 out0 with
  | zero => simp [mainLoop]
  | succ fuel ih =>
    rcases h0 with h0 | h0
    · subst h0
      unfold mainLoop
      rw [scanPara_noblank [] (by simp), reflow_nil isLetter min max pfuel hp]
      simp only [List.nil_append]
      rw [scanPara_noblank fin hfin]
      simp
    · have hex : ∃ l ∈ r0, blankLine l = true := by
        obtain ⟨r00, b, e, hb⟩ := h0
        exact ⟨b, by rw [e]; simp, hb⟩
      obtain ⟨pre, b1, post, e, hpre, hb1⟩ := first_blank_split r0 hex
      have hpost := ends_blank_tail pre post b1 (by rw [← e]; exact h0)
      have e2 : r0 ++ fin = pre ++ b1 :: (post ++ fin) := by rw [e]; simp
      unfold mainLoop
      rw [e2, e, scanPara_block pre b1 _ hpre hb1, scanPara_block pre b1 _ hpre hb1]
      simp only
      cases hr : reflow isLetter min max pre pfuel with
      | done lines =>
        simp only [if_true]
        exact ih post _ hpost
      | panic => rfl
      | outOfFuel => rfl

theorem final_paragraph_split (r : List Line) :
    ∃ r0 fin, r = r0 ++ fin
      ∧ (r0 = [] ∨ ∃ r00 b, r0 = r00 ++ [b] ∧ blankLine b = true)
      ∧ (∀ l ∈ fin, blankLine l = false) := by
  induction r using List.reverseRecOn with
  | nil => exact ⟨[], [], rfl, Or.inl rfl, by simp⟩
  | append_singleton r x ih =>
    by_cases hx : blankLine x = true
    · exact ⟨r ++ [x], [], by simp, Or.inr ⟨r, x, rfl, hx⟩, by simp⟩
    · obtain ⟨r0, fin, e, h0, hfin⟩ := ih
      refine ⟨r0, fin ++ [x], by rw [e]; simp, h0, ?_⟩
      intro l hl
      rcases List.mem_append.1 hl with hl | hl
      · exact hfin l hl
      · simp only [List.mem_singleton] at hl
        rw [hl]; simpa using hx

/-- C13, amended: every input is a part that is empty or ends with a blank
line, followed by a final paragraph without a blank line; the driver then writes
what it writes for the first part followed by the result of the final paragraph
and nothing after it, and a blank line added at the end of an input adds exactly
one empty line at the end of what the driver writes. -/
theorem main_trailing_blank (isLetter : Nat → Bool) (min max : Int) (pfuel : Nat)
    (hp : 0 < pfuel) (fuel : Nat) (r out0 : List Line) :
    (∃ r0 fin, r = r0 ++ fin
        ∧ (r0 = [] ∨ ∃ r00 b, r0 = r00 ++ [b] ∧ blankLine b = true)
        ∧ (∀ l ∈ fin, blankLine l = false))
      ∧ (∀ r0 fin, r = r0 ++ fin →
          (r0 = [] ∨ ∃ r00 b, r0 = r00 ++ [b] ∧ blankLine b = true) →
          (∀ l ∈ fin, blankLine l = false) →
          ∀ out, mainLoop isLetter min max pfuel fuel r out0 = Run.done out
            ↔ ∃ out1 lines, mainLoop isLetter min max pfuel fuel r0 out0 = Run.done out1
                ∧ reflow isLetter min max fin pfuel = Run.done lines
                ∧ out = out1 ++ lines)
      ∧ (∀ b out, blankLine b = true →
          mainLoop isLetter min max pfuel fuel r out0 = Run.done out →
          mainLoop isLetter min max pfuel (fuel + 1) (r ++ [b]) out0
            = Run.done (out ++ [[]])) := by
  refine ⟨final_paragraph_split r, ?_, ?_⟩
  · intro r0 fin e h0 hfin out
    rw [e, mainLoop_final isLetter min max pfuel hp fin hfin fuel r0 out0 h0]
    constructor
    · intro h
      cases h1 : mainLoop isLetter min max pfuel fuel r0 out0 with
      | done out1 =>
        rw [h1] at h
        cases h2 : reflow isLetter min max fin pfuel with
        | done lines =>
          rw [h2] at h
          simp only [Run.done.injEq] at h
          exact ⟨out1, lines, rfl, rfl, h.symm⟩
        | panic => rw [h2] at h; cases h
        | outOfFuel => rw [h2] at h; cases h
      | panic => rw [h1] at h; cases h
      | outOfFuel => rw [h1] at h; cases h
    · rintro ⟨out1, lines, h1, h2, rfl⟩
      rw [h1, h2]
  · intro b out hb h
    exact mainLoop_append_blank isLetter min max pfuel hp b hb fuel r out0 out h

/-- Witness of the amended C13 at the package bounds: the lines `Hi.`, an empty
line and `1.` are written as they are, with nothing after `1.`; with one more
empty line at the end of the input one empty line follows `1.`; and the line
`Hi.` followed by an empty line is written as `Hi.` followed by an empty line. -/
theorem main_trailing_blank_witness :
    mainLoop latin1Letter minLen maxLen 2 2 [lineHi, [], lineItem] []
        = Run.done ([lineHi, []] ++ [lineItem])
      ∧ mainLoop latin1Letter minLen maxLen 2 (2 + 1) ([lineHi, [], lineItem] ++ [[]]) []
        = Run.done ([lineHi, [], lineItem] ++ [[]])
      ∧ mainLoop latin1Letter minLen maxLen 2 (1 + 1) ([lineHi] ++ [[]]) []
        = Run.done ([lineHi] ++ [[]]) :=
  ⟨((main_trailing_blank latin1Letter minLen maxLen 2 (by decide) 2
        [lineHi, [], lineItem] []).2.1 [lineHi, []] [lineItem] rfl
        (Or.inr ⟨[lineHi], [], rfl, by decide⟩) (by decide) _).2
      ⟨[lineHi, []], [lineItem], by decide, by decide, rfl⟩,
   (main_trailing_blank latin1Letter minLen maxLen 2 (by decide) 2
        [lineHi, [], lineItem] []).2.2 [] [lineHi, [], lineItem] (by decide) (by decide),
   (main_trailing_blank latin1Letter minLen maxLen 2 (by decide) 1
        [lineHi] []).2.2 [] [lineHi] (by decide) (by decide)⟩


/-! ## Runs without a split -/

theorem runeCount_join_le (line next : Line) (c : Nat) (hc : line.getLast? = some c) :
    utf8RuneCount ((if c ≠ 32 then line ++ [32] else line) ++ next)
      ≤ utf8RuneCount line + 1 + utf8RuneCount next := by
  split_ifs with h
  · rw [List.append_assoc, List.singleton_append, runeCount_append_space]
  · have h32 : c = 32 := by omega
    rw [h32] at hc
    obtain ⟨init, e⟩ := List.getLast?_eq_some_iff.mp hc
    have h1 := runeCount_append_space init next
    have h2 := runeCount_append_space init []
    have h3 : utf8RuneCount [] = 0 := rfl
    rw [e, List.append_assoc, List.singleton_append, h1, h2, h3]
    omega

theorem joinLoop_exit (isLetter : Nat → Bool) (min : Int) (tail : List Line) (line : Line)
    (i : Nat) (line1 : Line) (j : Nat)
    (h : joinLoop isLetter min line i tail = some (line1, j)) :
    ∃ k, j = i + k ∧ k ≤ tail.length
      ∧ utf8RuneCount line1 + totalLength (tail.drop k) ≤ utf8RuneCount line + totalLength tail
      ∧ ((utf8RuneCount line1 : Int) < min →
          ∀ nxt, (tail.drop k).head? = some nxt → isLiteral isLetter nxt = true) := by
  induction tail generalizing line i with
  | nil =>
    simp only [joinLoop, Option.some.injEq, Prod.mk.injEq] at h
    obtain ⟨h1, h2⟩ := h
    subst h1 h2
    exact ⟨0, rfl, le_refl _, le_refl _, by intro _ nxt hn; simp at hn⟩
  | cons next t ih =>
    unfold joinLoop at h
    split_ifs at h with hlt hlit
    · simp only [Option.some.injEq, Prod.mk.injEq] at h
      obtain ⟨h1, h2⟩ := h
      subst h1 h2
      refine ⟨0, rfl, Nat.zero_le _, le_refl _, ?_⟩
      intro _ nxt hn
      simp only [List.drop_zero, List.head?_cons, Option.some.injEq] at hn
      rw [← hn]; exact hlit
    · split at h
      · cases h
      · rename_i c hc
        obtain ⟨k, hk1, hk2, hk3, hk4⟩ := ih _ _ h
        refine ⟨k + 1, by omega, by simp; omega, ?_, ?_⟩
        · have := runeCount_join_le line next c hc
          simp only [List.drop_succ_cons, totalLength]
          omega
        · simpa using hk4
    · simp only [Option.some.injEq, Prod.mk.injEq] at h
      obtain ⟨h1, h2⟩ := h
      subst h1 h2
      exact ⟨0, rfl, Nat.zero_le _, le_refl _, by intro hc; omega⟩

theorem adjacent_snoc (isLetter : Nat → Bool) (min : Int) (out0 : List Line) (x : Line)
    (hadj : ∀ pre l next post, out0 = pre ++ l :: next :: post →
      isLiteral isLetter l = false → (utf8RuneCount l : Int) < min →
      isLiteral isLetter next = true)
    (hlast : ∀ pre l, out0 = pre ++ [l] → isLiteral isLetter l = false →
      (utf8RuneCount l : Int) < min → isLiteral isLetter x = true) :
    ∀ pre l next post, out0 ++ [x] = pre ++ l :: next :: post →
      isLiteral isLetter l = false → (utf8RuneCount l : Int) < min →
      isLiteral isLetter next = true := by
  intro pre l next post e hl hs
  rcases List.eq_nil_or_concat post with hp | ⟨post1, y, hp⟩
  · subst hp
    have e2 : out0 ++ [x] = (pre ++ [l]) ++ [next] := by rw [e]; simp
    have h1 := List.append_inj_left' e2 rfl
    have h2 := List.append_inj_right' e2 rfl
    have hx : x = next := by simpa using h2
    rw [← hx]
    exact hlast pre l h1 hl hs
  · subst hp
    have e2 : out0 ++ [x] = (pre ++ l :: next :: post1) ++ [y] := by rw [e]; simp
    have h1 := List.append_inj_left' e2 rfl
    exact hadj pre l next post1 h1 hl hs

theorem last_snoc (out0 : List Line) (x : Line) (pre : List Line) (l : Line)
    (e : out0 ++ [x] = pre ++ [l]) : l = x := by
  have := List.append_inj_right' e rfl
  simpa using this.symm

theorem reflowLoop_noSplit (isLetter : Nat → Bool) (min max : Int) (fuel : Nat)
    (para : List Line) (i : Nat) (out0 : List Line)
    (hns : noSplit isLetter min max fuel para i = true)
    (hadj : ∀ pre l next post, out0 = pre ++ l :: next :: post →
      isLiteral isLetter l = false → (utf8RuneCount l : Int) < min →
      isLiteral isLetter next = true)
    (hlast : ∀ pre l, out0 = pre ++ [l] → isLiteral isLetter l = false →
      (utf8RuneCount l : Int) < min → i < para.length →
      isLiteral isLetter (para.getD i []) = true) :
    ∃ out, reflowLoop isLetter min max fuel para i out0 = Run.done out
      ∧ ∀ pre l next post, out = pre ++ l :: next :: post →
          isLiteral isLetter l = false → (utf8RuneCount l : Int) < min →
          isLiteral isLetter next = true := by
  induction fuel generalizing i out0 with
  | zero => simp [noSplit] at hns
  | succ fuel ih =>
    unfold noSplit at hns
    unfold reflowLoop
    by_cases hlt : i < para.length
    · rw [if_pos hlt] at hns ⊢
      by_cases hlit : isLiteral isLetter (para.getD i []) = true
      · rw [if_pos hlit] at hns ⊢
        refine ih (i + 1) _ hns ?_ ?_
        · exact adjacent_snoc isLetter min out0 _ hadj
            (fun pre l e hl hs => hlast pre l e hl hs hlt)
        · intro pre l e hl _ _
          rw [last_snoc out0 _ pre l e, hlit] at hl
          cases hl
      · rw [if_neg hlit] at hns ⊢
        split at hns
        · cases hns
        · rename_i line j hj
          split_ifs at hns with hmax
          rw [if_neg hmax]
          obtain ⟨k, hk1, hk2, _, hk4⟩ := joinLoop_exit isLetter min _ _ i line j hj
          refine ih (j + 1) _ hns ?_ ?_
          · refine adjacent_snoc isLetter min out0 _ hadj ?_
            intro pre l e hl hs
            exact absurd (hlast pre l e hl hs hlt) hlit
          · intro pre l e _ hs hj1
            rw [last_snoc out0 _ pre l e] at hs
            apply hk4 hs
            rw [List.drop_drop, List.head?_drop, List.getD_eq_getElem para [] hj1,
              List.getElem?_eq_getElem (by omega)]
            congr 2
            omega
    · rw [if_neg hlt]
      exact ⟨out0, rfl, hadj⟩

theorem totalLength_drop (para : List Line) (i : Nat) (h : i < para.length) :
    utf8RuneCount (para.getD i []) + 1 + totalLength (para.drop (i + 1)) ≤ totalLength para := by
  induction para generalizing i with
  | nil => simp at h
  | cons l ls ih =>
    cases i with
    | zero => simp [totalLength]
    | succ i =>
      have := ih i (by simpa using h)
      simp only [List.getD_cons_succ, List.drop_succ_cons, totalLength]
      omega

theorem noSplit_of_total (isLetter : Nat → Bool) (min max : Int) (para : List Line)
    (htot : (totalLength para : Int) ≤ max) (fuel i : Nat) (hf : para.length - i < fuel) :
    noSplit isLetter min max fuel para i = true := by
  induction fuel generalizing i with
  | zero => omega
  | succ fuel ih =>
    unfold noSplit
    by_cases hlt : i < para.length
    · rw [if_pos hlt]
      by_cases hlit : isLiteral isLetter (para.getD i []) = true
      · rw [if_pos hlit]
        exact ih (i + 1) (by omega)
      · rw [if_neg hlit]
        obtain ⟨line, j, hj, _⟩ := joinLoop_some isLetter min (para.drop (i + 1))
          (para.getD i []) i (ne_nil_of_reflowable isLetter _ (by simpa using hlit))
        obtain ⟨k, hk1, _, hk3, _⟩ := joinLoop_exit isLetter min _ _ i line j hj
        have hd := totalLength_drop para i hlt
        rw [hj]
        simp only
        rw [if_neg (by omega)]
        exact ih (j + 1) (by omega)
    · rw [if_neg hlt]

/-- C14: when the reflow loop runs without entering the split block, it
completes, and every line it writes that is reflowable and has fewer than `min`
runes is the last line written or is followed at once by a literal line; no
split happens when the rune counts of the lines plus the number of lines add up
to at most `max`. -/
theorem reflow_short_line_position (isLetter : Nat → Bool) (min max : Int) (para : List Line)
    (fuel : Nat) :
    (noSplit isLetter min max fuel para 0 = true →
        ∃ out, reflow isLetter min max para fuel = Run.done out
          ∧ ∀ pre l next post, out = pre ++ l :: next :: post →
              isLiteral isLetter l = false → (utf8RuneCount l : Int) < min →
              isLiteral isLetter next = true)
      ∧ ((totalLength para : Int) ≤ max →
        noSplit isLetter min max (para.length + 1) para 0 = true) := by
  constructor
  · intro hns
    refine reflowLoop_noSplit isLetter min max fuel para 0 [] hns ?_ ?_
    · intro pre l next post e
      simp at e
    · intro pre l e
      simp at e
  · intro htot
    exact noSplit_of_total isLetter min max para htot _ 0 (by omega)

set_option maxRecDepth 100000 in
/-- Witness of C14 at the package bounds: the paragraph `line30`, `1.`,
`line30`, `line30` is written as `line30`, `1.` and the join of the last two
lines; the first line is short and stands before the literal line. -/
theorem reflow_short_line_position_witness :
    noSplit latin1Letter minLen maxLen 5 [line30, lineItem, line30, line30] 0 = true
      ∧ ∃ out, reflow latin1Letter minLen maxLen [line30, lineItem, line30, line30] 5
            = Run.done out
          ∧ ∀ pre l next post, out = pre ++ l :: next :: post →
              isLiteral latin1Letter l = false → (utf8RuneCount l : Int) < minLen →
              isLiteral latin1Letter next = true :=
  ⟨by decide,
    (reflow_short_line_position latin1Letter minLen maxLen
      [line30, lineItem, line30, line30] 5).1 (by decide)⟩


/-! ## Chains of growth steps are finite

An iteration of the reflow loop that splits the current line without joining,
and appends `rest` or runs line 69, adds one line to the paragraph and moves the
index on by one, so `len(para) - i` stays as it is; line 69 also brings lines
already written back in front of the end.  Such steps are the relation `Grow`,
stated for any list with a weight (the rune count).  A chain of them is finite:
for a threshold `r`, the elements of weight at least `r` among the first `m` and
from the index on lose one at each step whose current element has weight at
least `r`, and gain two only when that weight is above `r` (`grow_potential`).
Over a window of about `i / Q` steps this bounds the steps at threshold `r` by
those above `r` (`chain_window`), which gives a bound polynomial in the number
of windows (`landings_poly`), while the index grows geometrically from window
to window (`winTime_geometric`). -/

section
variable {α : Type} (w : α → Nat)

theorem countAtLeast_append (r : Nat) (a b : List α) :
    countAtLeast w r (a ++ b) = countAtLeast w r a + countAtLeast w r b := by
  simp [countAtLeast, List.countP_append]

theorem countAtLeast_cons (r : Nat) (x : α) (a : List α) :
    countAtLeast w r (x :: a) = countAtLeast w r a + (if r ≤ w x then 1 else 0) := by
  simp [countAtLeast, List.countP_cons]

theorem countAtLeast_nil (r : Nat) : countAtLeast w r ([] : List α) = 0 := rfl

theorem countAtLeast_sublist (r : Nat) (a b : List α) (h : a.Sublist b) :
    countAtLeast w r a ≤ countAtLeast w r b :=
  h.countP_le _

theorem countAtLeast_take_mono (r : Nat) (l : List α) (a b : Nat) (h : a ≤ b) :
    countAtLeast w r (l.take a) ≤ countAtLeast w r (l.take b) := by
  have : l.take a = (l.take b).take a := by
    rw [List.take_take, Nat.min_eq_left h]
  rw [this]
  exact countAtLeast_sublist w r _ _ (List.take_sublist _ _)

theorem countAtLeast_drop_le (r : Nat) (l : List α) (n : Nat) :
    countAtLeast w r (l.drop n) ≤ countAtLeast w r l :=
  countAtLeast_sublist w r _ _ (List.drop_sublist _ _)

theorem countAtLeast_le_length (r : Nat) (l : List α) : countAtLeast w r l ≤ l.length :=
  List.countP_le_length _

theorem ind_rest_le (r a b : Nat) (h : a < b) :
    (if r ≤ a then 1 else 0) ≤ (if r + 1 ≤ b then 1 else 0) := by
  split_ifs <;> omega

theorem grow_potential (dflt : α) (Q r : Nat) (s s1 : List α × Nat)
    (hg : Grow w dflt Q s s1) (m : Nat) (hm1 : Q + 1 ≤ m) (hm2 : m ≤ s.2) :
    countAtLeast w r (s1.1.take (m - Q)) + countAtLeast w r (s1.1.drop s1.2)
        + (if r ≤ w (s.1.getD s.2 dflt) then 1 else 0)
      ≤ countAtLeast w r (s.1.take m) + countAtLeast w r (s.1.drop s.2)
        + 2 * (if r + 1 ≤ w (s.1.getD s.2 dflt) then 1 else 0) := by
  obtain ⟨p, i⟩ := s
  obtain ⟨p1, i1⟩ := s1
  obtain ⟨hi1, hlt, _, rest, hrest, hcase⟩ := hg
  simp only at hi1 hlt hrest hcase hm2 ⊢
  subst hi1
  have hind := ind_rest_le r _ _ hrest
  have hget : p.getD i dflt = p[i] := List.getD_eq_getElem p dflt hlt
  have hdrop : p.drop i = p[i] :: p.drop (i + 1) := List.drop_eq_getElem_cons hlt
  rw [hget] at hind
  rcases hcase with hp1 | ⟨X, l, Y, hp, hX, hp1⟩
  · -- append
    subst hp1
    have e1 : (p ++ [rest]).take (m - Q) = p.take (m - Q) :=
      List.take_append_of_le_length (by omega)
    have e2 : (p ++ [rest]).drop (i + 1) = p.drop (i + 1) ++ [rest] :=
      List.drop_append_of_le_length (by omega)
    have hmono := countAtLeast_take_mono w r p (m - Q) m (by omega)
    rw [e1, e2, hdrop, countAtLeast_append, countAtLeast_cons, countAtLeast_cons,
      countAtLeast_nil, hget]
    omega
  · -- rotation
    subst hp1
    subst hp
    have hlen : (X ++ l :: Y).length = X.length + 1 + Y.length := by
      rw [List.length_append, List.length_cons]; omega
    rw [hlen] at hlt
    obtain ⟨e, he⟩ : ∃ e, i = X.length + (e + 1) := ⟨i - X.length - 1, by omega⟩
    obtain ⟨k, hk⟩ : ∃ k, m - Q = k + 1 := ⟨m - Q - 1, by omega⟩
    obtain ⟨k2, hk2⟩ : ∃ k2, m = X.length + (k2 + 1) := ⟨m - X.length - 1, by omega⟩
    -- the prefix of the new list
    have e1 : (rest :: Y ++ (X ++ [rest])).take (m - Q) = rest :: Y.take k := by
      rw [hk, List.cons_append, List.take_succ_cons,
        List.take_append_of_le_length (by omega)]
    -- the prefix of the old list
    have e2 : (X ++ l :: Y).take m = X ++ l :: Y.take k2 := by
      rw [hk2, List.take_append, List.take_succ_cons]
    -- the part of the old list from the cursor on
    have e3 : (X ++ l :: Y).drop i = Y.drop e := by
      rw [he, List.drop_append, List.drop_succ_cons]
    have hY : Y.drop e = (X ++ l :: Y)[i] :: (X ++ l :: Y).drop (i + 1) := by
      rw [← e3, hdrop]
    -- the part of the new list from the cursor on
    have e4 : (rest :: Y ++ (X ++ [rest])).drop (i + 1)
        = ((X ++ l :: Y).drop (i + 1) ++ (X ++ [rest])).drop X.length := by
      have h1 : i = (X.length + 1) + e := by omega
      rw [List.cons_append, List.drop_succ_cons]
      conv_lhs => rw [h1, Nat.add_comm, ← List.drop_drop,
        List.drop_append_of_le_length (show e ≤ Y.length by omega), hY]
      rw [List.cons_append, List.drop_succ_cons]
    have hmono := countAtLeast_take_mono w r Y k k2 (by omega)
    have hd := countAtLeast_drop_le w r ((X ++ l :: Y).drop (i + 1) ++ (X ++ [rest])) X.length
    rw [e1, e4, e2, hdrop, hget]
    simp only [countAtLeast_append, countAtLeast_cons, countAtLeast_nil] at hd ⊢
    omega

theorem grow_count (dflt : α) (Q r : Nat) (s s1 : List α × Nat)
    (hg : Grow w dflt Q s s1) :
    countAtLeast w r s1.1
      ≤ countAtLeast w r s.1 + 2 * (if r + 1 ≤ w (s.1.getD s.2 dflt) then 1 else 0) := by
  obtain ⟨_, _, _, rest, hrest, hcase⟩ := hg
  have hind := ind_rest_le r _ _ hrest
  rcases hcase with hp1 | ⟨X, l, Y, hp, _, hp1⟩
  · rw [hp1, countAtLeast_append, countAtLeast_cons, countAtLeast_nil]
    omega
  · rw [hp] at hind
    rw [hp1, hp]
    simp only [List.cons_append, countAtLeast_append, countAtLeast_cons, countAtLeast_nil]
    omega

theorem grow_bound (dflt : α) (Q M : Nat) (s s1 : List α × Nat)
    (hg : Grow w dflt Q s s1) (hM : ∀ x ∈ s.1, w x ≤ M) : ∀ x ∈ s1.1, w x ≤ M := by
  obtain ⟨_, hlt, _, rest, hrest, hcase⟩ := hg
  have hmem : s.1.getD s.2 dflt ∈ s.1 := by
    rw [List.getD_eq_getElem s.1 dflt hlt]; exact List.getElem_mem hlt
  have hr : w rest ≤ M := by
    have := hM _ hmem
    omega
  rcases hcase with hp1 | ⟨X, l, Y, hp, _, hp1⟩
  · intro x hx
    rw [hp1] at hx
    rcases List.mem_append.mp hx with h | h
    · exact hM x h
    · rw [List.mem_singleton.mp h]; exact hr
  · intro x hx
    rw [hp1] at hx
    rw [hp] at hM
    simp only [List.cons_append, List.mem_cons, List.mem_append, List.mem_singleton,
      List.not_mem_nil, or_false] at hx hM
    rcases hx with h | h | h | h
    · rw [h]; exact hr
    · exact hM x (Or.inr (Or.inr h))
    · exact hM x (Or.inl h)
    · rw [h]; exact hr

theorem grow_length (dflt : α) (Q : Nat) (s s1 : List α × Nat) (hg : Grow w dflt Q s s1) :
    s1.1.length = s.1.length + 1 ∧ s1.2 = s.2 + 1 := by
  obtain ⟨h1, _, _, rest, _, hcase⟩ := hg
  refine ⟨?_, h1⟩
  rcases hcase with hp1 | ⟨X, l, Y, hp, _, hp1⟩
  · rw [hp1]; simp
  · rw [hp1, hp]; simp; omega

theorem landings_zero (dflt : α) (f : Nat → List α × Nat) (r : Nat) :
    landings w dflt f r 0 = 0 := by
  simp [landings]

theorem landings_succ (dflt : α) (f : Nat → List α × Nat) (r t : Nat) :
    landings w dflt f r (t + 1)
      = landings w dflt f r t + (if r ≤ w ((f t).1.getD (f t).2 dflt) then 1 else 0) := by
  simp [landings, Nat.count_succ]

theorem landings_le (dflt : α) (f : Nat → List α × Nat) (r t : Nat) :
    landings w dflt f r t ≤ t := by
  unfold landings
  exact Nat.count_le _

theorem chain_index (dflt : α) (Q N : Nat) (f : Nat → List α × Nat)
    (hc : ∀ t < N, Grow w dflt Q (f t) (f (t + 1))) (t : Nat) (ht : t ≤ N) :
    (f t).2 = (f 0).2 + t ∧ (f t).1.length = (f 0).1.length + t := by
  induction t with
  | zero => simp
  | succ t ih =>
    have := grow_length w dflt Q _ _ (hc t (by omega))
    have := ih (by omega)
    omega

theorem chain_bound (dflt : α) (Q N M : Nat) (f : Nat → List α × Nat)
    (hc : ∀ t < N, Grow w dflt Q (f t) (f (t + 1))) (hM : ∀ x ∈ (f 0).1, w x ≤ M)
    (t : Nat) (ht : t ≤ N) : ∀ x ∈ (f t).1, w x ≤ M := by
  induction t with
  | zero => exact hM
  | succ t ih => exact grow_bound w dflt Q M _ _ (hc t (by omega)) (ih (by omega))

theorem chain_landing_le (dflt : α) (Q N M : Nat) (f : Nat → List α × Nat)
    (hc : ∀ t < N, Grow w dflt Q (f t) (f (t + 1))) (hM : ∀ x ∈ (f 0).1, w x ≤ M)
    (t : Nat) (ht : t < N) : w ((f t).1.getD (f t).2 dflt) ≤ M := by
  have hb := chain_bound w dflt Q N M f hc hM t (by omega)
  obtain ⟨_, hlt, _⟩ := hc t ht
  apply hb
  rw [List.getD_eq_getElem _ dflt hlt]
  exact List.getElem_mem hlt

theorem landings_above (dflt : α) (Q N M : Nat) (f : Nat → List α × Nat)
    (hc : ∀ t < N, Grow w dflt Q (f t) (f (t + 1))) (hM : ∀ x ∈ (f 0).1, w x ≤ M)
    (r : Nat) (hr : M < r) (t : Nat) (ht : t ≤ N) : landings w dflt f r t = 0 := by
  induction t with
  | zero => exact landings_zero w dflt f r
  | succ t ih =>
    have := chain_landing_le w dflt Q N M f hc hM t (by omega)
    rw [landings_succ, ih (by omega), if_neg (by omega)]

theorem landings_all (dflt : α) (Q N : Nat) (f : Nat → List α × Nat)
    (hc : ∀ t < N, Grow w dflt Q (f t) (f (t + 1))) (t : Nat) (ht : t ≤ N) :
    landings w dflt f Q t = t := by
  induction t with
  | zero => exact landings_zero w dflt f Q
  | succ t ih =>
    obtain ⟨_, _, hq, _⟩ := hc t (by omega)
    rw [landings_succ, ih (by omega), if_pos hq]

theorem chain_count (dflt : α) (Q N r : Nat) (f : Nat → List α × Nat)
    (hc : ∀ t < N, Grow w dflt Q (f t) (f (t + 1))) (t : Nat) (ht : t ≤ N) :
    countAtLeast w r (f t).1
      ≤ countAtLeast w r (f 0).1 + 2 * landings w dflt f (r + 1) t := by
  induction t with
  | zero => simp [landings_zero]
  | succ t ih =>
    have h1 := grow_count w dflt Q r _ _ (hc t (by omega))
    have h2 := ih (by omega)
    rw [landings_succ]
    omega

theorem chain_window_aux (dflt : α) (Q N r : Nat) (f : Nat → List α × Nat)
    (hc : ∀ t < N, Grow w dflt Q (f t) (f (t + 1))) (t0 m n : Nat) (hn : t0 + n ≤ N)
    (hm1 : Q * n + 1 ≤ m) (hm2 : m ≤ (f t0).2) :
    landings w dflt f r (t0 + n)
        + countAtLeast w r ((f (t0 + n)).1.take (m - Q * n))
        + countAtLeast w r ((f (t0 + n)).1.drop (f (t0 + n)).2)
        + 2 * landings w dflt f (r + 1) t0
      ≤ landings w dflt f r t0 + countAtLeast w r ((f t0).1.take m)
        + countAtLeast w r ((f t0).1.drop (f t0).2)
        + 2 * landings w dflt f (r + 1) (t0 + n) := by
  induction n with
  | zero => simp
  | succ n ih =>
    have hmul : Q * (n + 1) = Q * n + Q := by ring
    have ih1 := ih (by omega) (by omega)
    have hi0 := chain_index w dflt Q N f hc t0 (by omega)
    have hi1 := chain_index w dflt Q N f hc (t0 + n) (by omega)
    have hp := grow_potential w dflt Q r _ _ (hc (t0 + n) (by omega)) (m - Q * n)
      (by omega) (by omega)
    have e : m - Q * n - Q = m - Q * (n + 1) := by omega
    rw [e] at hp
    have e2 : t0 + (n + 1) = (t0 + n) + 1 := by omega
    rw [e2, landings_succ, landings_succ]
    omega

theorem chain_window (dflt : α) (Q N r : Nat) (f : Nat → List α × Nat)
    (hc : ∀ t < N, Grow w dflt Q (f t) (f (t + 1))) (t0 n : Nat) (hn : t0 + n ≤ N)
    (hm : Q * n + 1 ≤ (f 0).2 + t0) :
    landings w dflt f r (t0 + n)
      ≤ landings w dflt f r t0 + (f 0).1.length + 2 * landings w dflt f (r + 1) (t0 + n) := by
  have hi0 := chain_index w dflt Q N f hc t0 (by omega)
  have h1 := chain_window_aux w dflt Q N r f hc t0 (f t0).2 n hn (by omega) (le_refl _)
  have h2 := chain_count w dflt Q N r f hc t0 (by omega)
  have h3 : countAtLeast w r ((f t0).1.take (f t0).2) + countAtLeast w r ((f t0).1.drop (f t0).2)
      = countAtLeast w r (f t0).1 := by
    rw [← countAtLeast_append, List.take_append_drop]
  have h4 := countAtLeast_le_length w r (f 0).1
  omega

theorem winTime_ge (Q I0 k : Nat) : 2 * Q ≤ winTime Q I0 k := by
  induction k with
  | zero => exact le_refl _
  | succ k ih => exact le_trans ih (Nat.le_add_right _ _)

theorem winTime_window (Q I0 k : Nat) (hQ : 1 ≤ Q) :
    Q * ((I0 + winTime Q I0 k - 1) / Q) + 1 ≤ I0 + winTime Q I0 k := by
  have h1 := winTime_ge Q I0 k
  have h2 := Nat.mul_div_le (I0 + winTime Q I0 k - 1) Q
  omega

theorem winTime_growth (Q I0 k : Nat) (hQ : 1 ≤ Q) :
    (2 * Q + 1) * (I0 + winTime Q I0 k) ≤ 2 * Q * (I0 + winTime Q I0 (k + 1)) := by
  have h1 := winTime_ge Q I0 k
  have h2 := Nat.div_add_mod (I0 + winTime Q I0 k - 1) Q
  have h3 := Nat.mod_lt (I0 + winTime Q I0 k - 1) (show 0 < Q by omega)
  have e : winTime Q I0 (k + 1) = winTime Q I0 k + (I0 + winTime Q I0 k - 1) / Q := rfl
  rw [e]
  generalize (I0 + winTime Q I0 k - 1) / Q = D at h2 ⊢
  generalize (I0 + winTime Q I0 k - 1) % Q = R at h2 h3
  have h4 : 2 * Q * (I0 + (winTime Q I0 k + D))
      = 2 * Q * (I0 + winTime Q I0 k) + 2 * (Q * D) := by ring
  have h5 : (2 * Q + 1) * (I0 + winTime Q I0 k)
      = 2 * Q * (I0 + winTime Q I0 k) + (I0 + winTime Q I0 k) := by ring
  rw [h4, h5]
  omega

theorem winTime_geometric (Q I0 k : Nat) (hQ : 1 ≤ Q) :
    (2 * Q + 1) ^ k * (I0 + 2 * Q) ≤ (2 * Q) ^ k * (I0 + winTime Q I0 k) := by
  induction k with
  | zero => simp [winTime]
  | succ k ih =>
    have h := winTime_growth Q I0 k hQ
    calc (2 * Q + 1) ^ (k + 1) * (I0 + 2 * Q)
        = (2 * Q + 1) * ((2 * Q + 1) ^ k * (I0 + 2 * Q)) := by ring
      _ ≤ (2 * Q + 1) * ((2 * Q) ^ k * (I0 + winTime Q I0 k)) :=
          Nat.mul_le_mul_left _ ih
      _ = (2 * Q) ^ k * ((2 * Q + 1) * (I0 + winTime Q I0 k)) := by ring
      _ ≤ (2 * Q) ^ k * (2 * Q * (I0 + winTime Q I0 (k + 1))) :=
          Nat.mul_le_mul_left _ h
      _ = (2 * Q) ^ (k + 1) * (I0 + winTime Q I0 (k + 1)) := by ring

theorem poly_step (B H v j : Nat) (hH : H ≤ B) :
    B * v ^ (j + 1) + H + 2 * (B * (v + 3) ^ j) ≤ B * (v + 3) ^ (j + 1) := by
  have h1 : v ^ j ≤ (v + 3) ^ j := Nat.pow_le_pow_left (by omega) j
  have h2 : 1 ≤ (v + 3) ^ j := Nat.one_le_pow _ _ (by omega)
  have h3 : H ≤ B * (v + 3) ^ j := le_trans hH (Nat.le_mul_of_pos_right B h2)
  have h4 : B * v ^ (j + 1) ≤ B * (v * (v + 3) ^ j) := by
    rw [pow_succ, Nat.mul_comm (v ^ j) v]
    exact Nat.mul_le_mul_left _ (Nat.mul_le_mul_left _ h1)
  have h5 : B * (v + 3) ^ (j + 1) = B * (v * (v + 3) ^ j) + 3 * (B * (v + 3) ^ j) := by ring
  rw [h5]
  omega

theorem landings_poly (dflt : α) (Q N M : Nat) (hQ : 1 ≤ Q) (f : Nat → List α × Nat)
    (hc : ∀ t < N, Grow w dflt Q (f t) (f (t + 1))) (hM : ∀ x ∈ (f 0).1, w x ≤ M)
    (j r : Nat) (hr : r + j = M + 1) (k : Nat) (hk : winTime Q (f 0).2 k ≤ N) :
    landings w dflt f r (winTime Q (f 0).2 k)
      ≤ (2 * Q + (f 0).1.length) * (3 * (k + 1)) ^ j := by
  induction j generalizing r k with
  | zero =>
    rw [landings_above w dflt Q N M f hc hM r (by omega) _ hk]
    exact Nat.zero_le _
  | succ j ih =>
    induction k with
    | zero =>
      have h1 := landings_le w dflt f r (winTime Q (f 0).2 0)
      have h2 : winTime Q (f 0).2 0 = 2 * Q := rfl
      have h3 : 1 ≤ (3 * (0 + 1)) ^ (j + 1) := Nat.one_le_pow _ _ (by omega)
      have h4 := Nat.le_mul_of_pos_right (2 * Q + (f 0).1.length) h3
      omega
    | succ k ihk =>
      have e : winTime Q (f 0).2 (k + 1)
          = winTime Q (f 0).2 k + ((f 0).2 + winTime Q (f 0).2 k - 1) / Q := rfl
      have hk0 : winTime Q (f 0).2 k ≤ N := le_trans (Nat.le_add_right _ _) (e ▸ hk)
      have h1 := ihk hk0
      have h2 := ih (r + 1) (by omega) (k + 1) hk
      have h3 := chain_window w dflt Q N r f hc (winTime Q (f 0).2 k)
        (((f 0).2 + winTime Q (f 0).2 k - 1) / Q) (by rw [← e]; exact hk)
        (winTime_window Q (f 0).2 k hQ)
      rw [← e] at h3
      have h4 := poly_step (2 * Q + (f 0).1.length) (f 0).1.length (3 * (k + 1)) j (by omega)
      have e2 : 3 * (k + 1) + 3 = 3 * (k + 1 + 1) := by ring
      rw [e2] at h4
      omega

end

theorem exp_beats_poly (a C K : Nat) (ha : 1 ≤ a) :
    ∃ k, a ^ k * (C * (k + 1) ^ K) < (a + 1) ^ k := by
  have ha0 : (0 : ℝ) < (a : ℝ) := by exact_mod_cast ha
  have hr : (1 : ℝ) < ((a : ℝ) + 1) / a := by
    rw [lt_div_iff₀ ha0]; linarith
  have ht := tendsto_pow_const_div_const_pow_of_one_lt K hr
  have hpos : (0 : ℝ) < 1 / ((C : ℝ) * 2 ^ K + 1) := by positivity
  have hev := ht.eventually (gt_mem_nhds hpos)
  obtain ⟨k, hk, hk1⟩ := (hev.and (Filter.eventually_ge_atTop 1)).exists
  refine ⟨k, ?_⟩
  have hrk : (0 : ℝ) < (((a : ℝ) + 1) / a) ^ k := by positivity
  have hc : (0 : ℝ) < (C : ℝ) * 2 ^ K + 1 := by positivity
  -- (C 2^K + 1) k^K < ((a+1)/a)^k
  have h1 : ((C : ℝ) * 2 ^ K + 1) * (k : ℝ) ^ K < (((a : ℝ) + 1) / a) ^ k := by
    have := hk
    rw [div_lt_div_iff₀ hrk hc] at this
    linarith
  have h2 : (((a : ℝ) + 1) / a) ^ k = ((a : ℝ) + 1) ^ k / (a : ℝ) ^ k := div_pow _ _ _
  rw [h2, lt_div_iff₀ (by positivity)] at h1
  have h3 : ((k : ℝ) + 1) ^ K ≤ 2 ^ K * (k : ℝ) ^ K := by
    rw [← mul_pow]
    apply pow_le_pow_left₀ (by positivity)
    have : (1 : ℝ) ≤ (k : ℝ) := by exact_mod_cast hk1
    linarith
  have h4 : ((a : ℝ) ^ k * ((C : ℝ) * ((k : ℝ) + 1) ^ K)) < ((a : ℝ) + 1) ^ k := by
    have hak : (0 : ℝ) < (a : ℝ) ^ k := by positivity
    have hkK : (0 : ℝ) ≤ (k : ℝ) ^ K := by positivity
    have hC : (0 : ℝ) ≤ (C : ℝ) := by positivity
    calc (a : ℝ) ^ k * ((C : ℝ) * ((k : ℝ) + 1) ^ K)
        ≤ (a : ℝ) ^ k * ((C : ℝ) * (2 ^ K * (k : ℝ) ^ K)) := by
          apply mul_le_mul_of_nonneg_left _ hak.le
          exact mul_le_mul_of_nonneg_left h3 hC
      _ ≤ ((C : ℝ) * 2 ^ K + 1) * (k : ℝ) ^ K * (a : ℝ) ^ k := by
          have : (0 : ℝ) ≤ (k : ℝ) ^ K * (a : ℝ) ^ k := by positivity
          nlinarith
      _ < ((a : ℝ) + 1) ^ k := h1
  exact_mod_cast h4

theorem weight_le_sum {α : Type} (w : α → Nat) (l : List α) :
    ∀ x ∈ l, w x ≤ (l.map w).sum := by
  induction l with
  | nil => intro x hx; cases hx
  | cons a l ih =>
    intro x hx
    rw [List.map_cons, List.sum_cons]
    rcases List.mem_cons.mp hx with h | h
    · rw [h]; omega
    · have := ih x h; omega

/-- From every state there is a length that no chain of growth steps reaches. -/
theorem no_long_chain {α : Type} (w : α → Nat) (dflt : α) (Q : Nat) (hQ : 1 ≤ Q)
    (s : List α × Nat) :
    ∃ N, ∀ f : Nat → List α × Nat, f 0 = s →
      ¬ ∀ t < N, Grow w dflt Q (f t) (f (t + 1)) := by
  obtain ⟨k, hk⟩ := exp_beats_poly (2 * Q)
    (s.2 + (2 * Q + s.1.length) * 3 ^ ((s.1.map w).sum + 1)) ((s.1.map w).sum + 1) (by omega)
  refine ⟨winTime Q s.2 k, ?_⟩
  intro f hf hc
  subst hf
  have hM : ∀ x ∈ (f 0).1, w x ≤ Q + ((f 0).1.map w).sum := by
    intro x hx
    have := weight_le_sum w (f 0).1 x hx
    omega
  have hall := landings_all w dflt Q _ f hc (winTime Q (f 0).2 k) (le_refl _)
  have hpoly := landings_poly w dflt Q _ _ hQ f hc hM (((f 0).1.map w).sum + 1) Q
    (by omega) k (le_refl _)
  have hgeo := winTime_geometric Q (f 0).2 k hQ
  rw [hall] at hpoly
  have h1 : 1 ≤ (k + 1) ^ (((f 0).1.map w).sum + 1) := Nat.one_le_pow _ _ (by omega)
  have h2 : (f 0).2 + winTime Q (f 0).2 k
      ≤ ((f 0).2 + (2 * Q + (f 0).1.length) * 3 ^ (((f 0).1.map w).sum + 1))
        * (k + 1) ^ (((f 0).1.map w).sum + 1) := by
    rw [mul_pow] at hpoly
    have h3 : (f 0).2 ≤ (f 0).2 * (k + 1) ^ (((f 0).1.map w).sum + 1) :=
      Nat.le_mul_of_pos_right _ h1
    calc (f 0).2 + winTime Q (f 0).2 k
        ≤ (f 0).2 * (k + 1) ^ (((f 0).1.map w).sum + 1)
          + (2 * Q + (f 0).1.length)
            * (3 ^ (((f 0).1.map w).sum + 1) * (k + 1) ^ (((f 0).1.map w).sum + 1)) :=
          Nat.add_le_add h3 hpoly
      _ = _ := by ring
  have h4 : (2 * Q + 1) ^ k ≤ (2 * Q + 1) ^ k * ((f 0).2 + 2 * Q) :=
    Nat.le_mul_of_pos_right _ (by omega)
  have h5 := Nat.mul_le_mul_left ((2 * Q) ^ k) h2
  omega


/-! ## The reflow loop stops -/

theorem joinLoop_same_index (isLetter : Nat → Bool) (min : Int) (tail : List Line) (line : Line)
    (i : Nat) (line1 : Line) (h : joinLoop isLetter min line i tail = some (line1, i)) :
    line1 = line := by
  cases tail with
  | nil =>
    simp only [joinLoop, Option.some.injEq, Prod.mk.injEq] at h
    exact h.1.symm
  | cons next t =>
    unfold joinLoop at h
    split_ifs at h with hlt hlit
    · simp only [Option.some.injEq, Prod.mk.injEq] at h
      exact h.1.symm
    · split at h
      · cases h
      · obtain ⟨k, hk, _⟩ := joinLoop_exit isLetter min _ _ _ _ _ h
        omega
    · simp only [Option.some.injEq, Prod.mk.injEq] at h
      exact h.1.symm

theorem splitBlock_some (isLetter : Nat → Bool) (max : Int) (line first : Line)
    (para para1 : List Line) (h : splitBlock isLetter max line para = some (first, para1)) :
    0 ≤ max ∧ ∃ s : Nat, (s : Int) ≤ max ∧ s < (decodeRunes line).length
      ∧ insertRest isLetter para s (runesBytes ((decodeRunes line).drop (s + 1)))
        = some para1 := by
  unfold splitBlock at h
  split at h
  · cases h
  · rename_i i hi
    split_ifs at h with hneg
    have hmax : ¬ max < 0 := by
      intro hm
      rw [if_pos hm] at hi
      simp only [Option.some.injEq] at hi
      omega
    rw [if_neg hmax] at hi
    have hle := scanSpace_le _ _ _ hi
    have hsp := scanSpace_space _ _ _ hi (by omega)
    have hlt : i.toNat < (decodeRunes line).length := by
      by_contra hc
      rw [List.getElem?_eq_none (by omega)] at hsp
      cases hsp
    have hv1 : ∀ r ∈ (decodeRunes line).take i.toNat, validRune r :=
      fun r hr => decodeRunes_valid line r (List.mem_of_mem_take hr)
    have hv2 : ∀ r ∈ (decodeRunes line).drop (i.toNat + 1), validRune r :=
      fun r hr => decodeRunes_valid line r (List.mem_of_mem_drop hr)
    rw [encodeRunes_valid _ hv1, encodeRunes_valid _ hv2] at h
    simp only [Option.map_eq_some', Prod.mk.injEq] at h
    obtain ⟨p, hp, _, hp1⟩ := h
    exact ⟨by omega, i.toNat, by omega, hlt, by rw [hp, hp1]⟩

theorem rotate_eq (para : List Line) (c : Nat) (rest : Line) (hc : c < para.length) :
    para = para.take c ++ para.getD c [] :: para.drop (c + 1)
      ∧ (para.set c rest).drop c ++ (para.set c rest).take (c + 1)
        = rest :: para.drop (c + 1) ++ (para.take c ++ [rest]) := by
  have e : para = para.take c ++ para.getD c [] :: para.drop (c + 1) := by
    rw [List.getD_eq_getElem para [] hc, ← List.drop_eq_getElem_cons hc,
      List.take_append_drop]
  refine ⟨e, ?_⟩
  have hlen : (para.take c).length = c := by
    rw [List.length_take]; omega
  have hset : para.set c rest = para.take c ++ rest :: para.drop (c + 1) := by
    conv_lhs => rw [e]
    rw [List.set_append_right _ _ (by omega), hlen, Nat.sub_self]
    rfl
  rw [hset]
  have h1 : (para.take c ++ rest :: para.drop (c + 1)).drop c = rest :: para.drop (c + 1) :=
    List.drop_left' hlen
  have h2 : (para.take c ++ rest :: para.drop (c + 1)).take (c + 1) = para.take c ++ [rest] := by
    rw [List.take_append_eq_append_take, hlen, List.take_of_length_le (by omega)]
    have : c + 1 - c = 1 := by omega
    rw [this]
    rfl
  rw [h1, h2]

theorem insertRest_cases (isLetter : Nat → Bool) (para : List Line) (s : Nat) (rest : Line)
    (para1 : List Line) (h : insertRest isLetter para s rest = some para1) :
    para1.length = para.length ∨ para1 = para ++ [rest]
      ∨ (s + 1 < para.length
          ∧ para = para.take (s + 1) ++ para.getD (s + 1) [] :: para.drop (s + 1 + 1)
          ∧ para1 = rest :: para.drop (s + 1 + 1) ++ (para.take (s + 1) ++ [rest])) := by
  unfold insertRest at h
  split_ifs at h with h1 h2
  · right; right
    obtain ⟨e1, e2⟩ := rotate_eq para (s + 1) rest h1
    simp only [Option.some.injEq] at h
    exact ⟨h1, e1, by rw [← h, ← e2]⟩
  · split at h
    · cases h
    · simp only [Option.some.injEq] at h
      left
      rw [← h, List.length_set]
  · simp only [Option.some.injEq] at h
    right; left
    exact h.symm

/-- One iteration of the reflow loop from a state with `i < len(para)`: it
panics, or it goes on from a state where `len(para) - i` is smaller, or it makes
a growth step. -/
theorem reflowLoop_step (isLetter : Nat → Bool) (min max : Int) (para : List Line) (i : Nat)
    (out : List Line) (hlt : i < para.length) :
    (∀ fuel, reflowLoop isLetter min max (fuel + 1) para i out = Run.panic)
      ∨ ∃ para1 i1 out1,
          (∀ fuel, reflowLoop isLetter min max (fuel + 1) para i out
            = reflowLoop isLetter min max fuel para1 i1 out1)
          ∧ (para1.length - i1 < para.length - i
              ∨ Grow utf8RuneCount [] (max.toNat + 1) (para, i) (para1, i1)) := by
  by_cases hlit : isLiteral isLetter (para.getD i []) = true
  · right
    refine ⟨para, i + 1, out ++ [para.getD i []], ?_, Or.inl (by omega)⟩
    intro fuel
    rw [reflowLoop, if_pos hlt, if_pos hlit]
  cases hj : joinLoop isLetter min (para.getD i []) i (para.drop (i + 1)) with
  | none =>
    left
    intro fuel
    rw [reflowLoop, if_pos hlt, if_neg hlit, hj]
  | some lj =>
    obtain ⟨line, j⟩ := lj
    obtain ⟨k, hk1, hk2, _, _⟩ := joinLoop_exit isLetter min _ _ i line j hj
    rw [List.length_drop] at hk2
    by_cases hmax : max < (utf8RuneCount line : Int)
    · cases hs : splitBlock isLetter max line para with
      | none =>
        left
        intro fuel
        rw [reflowLoop, if_pos hlt, if_neg hlit, hj]
        simp only
        rw [if_pos hmax, hs]
      | some fp =>
        obtain ⟨first, p1⟩ := fp
        right
        refine ⟨p1, j + 1, out ++ [first], ?_, ?_⟩
        · intro fuel
          rw [reflowLoop, if_pos hlt, if_neg hlit, hj]
          simp only
          rw [if_pos hmax, hs]
        · obtain ⟨h0, s, hs1, hs2, hins⟩ := splitBlock_some isLetter max line first para p1 hs
          have hcount : utf8RuneCount (runesBytes ((decodeRunes line).drop (s + 1)))
              < utf8RuneCount line := by
            rw [runeCount_runesBytes _
              (fun r hr => decodeRunes_valid line r (List.mem_of_mem_drop hr)),
              List.length_drop, utf8RuneCount]
            omega
          have hgrow : k = 0 → (p1 = para ++ [runesBytes ((decodeRunes line).drop (s + 1))]
              ∨ ∃ X l Y, para = X ++ l :: Y ∧ X.length ≤ max.toNat + 1
                ∧ p1 = runesBytes ((decodeRunes line).drop (s + 1)) :: Y
                    ++ (X ++ [runesBytes ((decodeRunes line).drop (s + 1))])) →
              Grow utf8RuneCount [] (max.toNat + 1) (para, i) (p1, j + 1) := by
            intro hk0 hc
            have hji : j = i := by omega
            subst hji
            have hline := joinLoop_same_index isLetter min _ _ _ _ hj
            subst hline
            exact ⟨rfl, hlt, by simp only; omega, _, hcount, hc⟩
          rcases insertRest_cases isLetter para s _ p1 hins with hl | ha | ⟨hc, he, hr⟩
          · left; omega
          · have hl : p1.length = para.length + 1 := by rw [ha]; simp
            by_cases hk0 : k = 0
            · right; exact hgrow hk0 (Or.inl ha)
            · left; omega
          · have hl : p1.length = para.length + 1 := by
              rw [hr]
              simp only [List.cons_append, List.length_cons, List.length_append,
                List.length_drop, List.length_take, List.length_nil]
              omega
            by_cases hk0 : k = 0
            · right
              refine hgrow hk0 (Or.inr ⟨_, _, _, he, ?_, hr⟩)
              rw [List.length_take]
              omega
            · left; omega
    · right
      refine ⟨para, j + 1, out ++ [line], ?_, Or.inl (by omega)⟩
      intro fuel
      rw [reflowLoop, if_pos hlt, if_neg hlit, hj]
      simp only
      rw [if_neg hmax]

theorem reflowLoop_at_end (isLetter : Nat → Bool) (min max : Int) (para : List Line) (i : Nat)
    (out : List Line) (h : ¬ i < para.length) (fuel : Nat) :
    reflowLoop isLetter min max (fuel + 1) para i out = Run.done out := by
  rw [reflowLoop, if_neg h]

theorem reflowLoop_stops_chain (isLetter : Nat → Bool) (min max : Int) (d : Nat)
    (IH : ∀ d1 < d, ∀ para i out, para.length - i = d1 →
      ∃ fuel, reflowLoop isLetter min max fuel para i out ≠ Run.outOfFuel)
    (n : Nat) (para : List Line) (i : Nat) (out : List Line) (hd : para.length - i = d)
    (hn : ∀ f : Nat → List Line × Nat, f 0 = (para, i) →
      ¬ ∀ t < n, Grow utf8RuneCount [] (max.toNat + 1) (f t) (f (t + 1))) :
    ∃ fuel, reflowLoop isLetter min max fuel para i out ≠ Run.outOfFuel := by
  induction n generalizing para i out with
  | zero =>
    exfalso
    exact hn (fun _ => (para, i)) rfl (by intro t ht; omega)
  | succ n ih =>
    by_cases hlt : i < para.length
    · rcases reflowLoop_step isLetter min max para i out hlt with hp | ⟨p1, i1, out1, he, hc⟩
      · exact ⟨1, by rw [hp 0]; simp⟩
      · have hnext : ∃ fuel, reflowLoop isLetter min max fuel p1 i1 out1 ≠ Run.outOfFuel := by
          rcases hc with hlt1 | hg
          · exact IH (p1.length - i1) (by omega) p1 i1 out1 rfl
          · have hl := grow_length utf8RuneCount [] _ _ _ hg
            simp only at hl
            apply ih p1 i1 out1 (by omega)
            intro f hf hchain
            apply hn (fun t => match t with | 0 => (para, i) | t + 1 => f t) rfl
            intro t ht
            cases t with
            | zero =>
              simp only
              rw [hf]
              exact hg
            | succ t =>
              simp only
              exact hchain t (by omega)
        obtain ⟨fuel, hf⟩ := hnext
        exact ⟨fuel + 1, by rw [he fuel]; exact hf⟩
    · exact ⟨1, by rw [reflowLoop_at_end isLetter min max para i out hlt 0]; simp⟩

theorem reflowLoop_stops (isLetter : Nat → Bool) (min max : Int) (para : List Line) (i : Nat)
    (out : List Line) :
    ∃ fuel, reflowLoop isLetter min max fuel para i out ≠ Run.outOfFuel := by
  suffices H : ∀ d, ∀ para i out, para.length - i = d →
      ∃ fuel, reflowLoop isLetter min max fuel para i out ≠ Run.outOfFuel from
    H _ para i out rfl
  intro d
  induction d using Nat.strong_induction_on with
  | _ d IH =>
    intro para i out hd
    obtain ⟨N, hN⟩ := no_long_chain utf8RuneCount [] (max.toNat + 1) (by omega) (para, i)
    exact reflowLoop_stops_chain isLetter min max d IH N para i out hd hN

theorem reflowLoop_fuel_succ (isLetter : Nat → Bool) (min max : Int) (fuel : Nat)
    (para : List Line) (i : Nat) (out : List Line)
    (h : reflowLoop isLetter min max fuel para i out ≠ Run.outOfFuel) :
    reflowLoop isLetter min max (fuel + 1) para i out
      = reflowLoop isLetter min max fuel para i out := by
  induction fuel generalizing para i out with
  | zero => exact absurd rfl h
  | succ fuel ih =>
    by_cases hlt : i < para.length
    · rcases reflowLoop_step isLetter min max para i out hlt with hp | ⟨p1, i1, out1, he, _⟩
      · rw [hp, hp]
      · rw [he fuel] at h
        rw [he (fuel + 1), he fuel]
        exact ih p1 i1 out1 h
    · rw [reflowLoop_at_end isLetter min max para i out hlt,
        reflowLoop_at_end isLetter min max para i out hlt]

theorem reflowLoop_fuel_le (isLetter : Nat → Bool) (min max : Int) (fuel : Nat)
    (para : List Line) (i : Nat) (out : List Line)
    (h : reflowLoop isLetter min max fuel para i out ≠ Run.outOfFuel) (fuel1 : Nat)
    (hle : fuel ≤ fuel1) :
    reflowLoop isLetter min max fuel1 para i out
      = reflowLoop isLetter min max fuel para i out := by
  induction fuel1 with
  | zero =>
    have : fuel = 0 := by omega
    rw [this]
  | succ fuel1 ih =>
    by_cases he : fuel = fuel1 + 1
    · rw [he]
    · have h1 := ih (by omega)
      rw [reflowLoop_fuel_succ isLetter min max fuel1 para i out (by rw [h1]; exact h), h1]

/-- C15: for every paragraph and all bounds the reflow loop stops: there is a
number of steps within which it completes or panics, and every larger number of
steps gives the same result. -/
theorem reflow_stops (isLetter : Nat → Bool) (min max : Int) (para : List Line) :
    ∃ fuel r, r ≠ Run.outOfFuel
      ∧ ∀ fuel1, fuel ≤ fuel1 → reflow isLetter min max para fuel1 = r := by
  obtain ⟨fuel, hf⟩ := reflowLoop_stops isLetter min max para 0 []
  refine ⟨fuel, reflowLoop isLetter min max fuel para 0 [], hf, ?_⟩
  intro fuel1 hle
  exact reflowLoop_fuel_le isLetter min max fuel para 0 [] hf fuel1 hle

end Formate
